import Mathlib

/-
  Verification of the advanced-vector container (src/advanced-vector/vector.h).

  Shallow embedding: a raw buffer is a list of slots, where `some x` is a live
  (constructed) element holding value `x` and `none` is an uninitialized slot.
  The standard-library building blocks used by the source
  (`std::uninitialized_copy_n`, `std::uninitialized_move_n`, `std::destroy_n`,
  `std::copy_n`, `std::move`, `std::move_backward`,
  `std::uninitialized_value_construct_n`) are modelled as slot-level recursions,
  and each `Vector` member function is translated branch by branch.

  Exceptions thrown by the element type are modelled by a throw schedule
  `throws : Nat → Bool`: constructions performed during one member-function call
  are numbered consecutively, and construction number `k` throws iff
  `throws k = true`.  A fallible operation returns `Except e ok`, where the
  `error` value records the state the exception propagation leaves behind
  (the container, and where relevant the local new block at the moment the
  exception escapes), exactly following the rollback steps the code and the
  standard library perform (`uninitialized_copy_n` destroys the elements it
  constructed before rethrowing; `catch` blocks run their explicit cleanups).
-/

namespace AdvVec

variable {α : Type}

/-- A raw buffer: a list of slots; `some x` is a live element, `none` an
uninitialized slot.  The length of the list is the capacity of the block. -/
abbrev Buf (α : Type) : Type := List (Option α)

/-- Model of `RawMemory<T>`: owns one buffer of uninitialized-or-live slots. -/
structure RawMemory (α : Type) where
  buffer : Buf α

/-- Model of `RawMemory::Capacity()`. -/
def RawMemory.Capacity (m : RawMemory α) : Nat := m.buffer.length

/-- Model of `RawMemory(size_t capacity)` / `RawMemory::Allocate`: a fresh
block of `n` uninitialized slots. -/
def RawMemory.Allocate (α : Type) (n : Nat) : RawMemory α := ⟨List.replicate n none⟩

/-- The values held in slots `[s, s+n)` of a buffer (reading out of range
yields `none`).  Used to state what the copy/move loops produce. -/
def slice (buf : Buf α) (s n : Nat) : Buf α :=
  match n with
  | 0 => []
  | m + 1 => buf.getD s none :: slice buf (s + 1) m

/-- Model of `std::uninitialized_copy_n(from + s, n, to + d)` (and of
`std::uninitialized_move_n`, which leaves the same slot values): constructs a
copy of slot `s + i` of `src` into slot `d + i` of `dst` for `i < n`. -/
def uninitializedCopyN (src : Buf α) (s n : Nat) (dst : Buf α) (d : Nat) : Buf α :=
  match n with
  | 0 => dst
  | m + 1 => uninitializedCopyN src (s + 1) m (dst.set d (src.getD s none)) (d + 1)

/-- Model of `std::destroy_n(buf + s, n)`: slots `[s, s+n)` become
uninitialized. -/
def destroyN (buf : Buf α) (s n : Nat) : Buf α :=
  match n with
  | 0 => buf
  | m + 1 => destroyN (buf.set s none) (s + 1) m

/-- Model of `std::copy_n(from + s, n, to + d)`: copy-assignment over already
constructed destination slots; same slot values as construction. -/
def copyN (src : Buf α) (s n : Nat) (dst : Buf α) (d : Nat) : Buf α :=
  match n with
  | 0 => dst
  | m + 1 => copyN src (s + 1) m (dst.set d (src.getD s none)) (d + 1)

/-- Model of `std::move(buf + s, buf + (s+n), buf + d)` as used by `Erase`
(`d < s`): move-assigns slot `s + i` into slot `d + i`, left to right.
Move-assignment in the value model copies the value (the moved-from slot stays
live until overwritten or destroyed). -/
def moveN (buf : Buf α) (s d n : Nat) : Buf α :=
  match n with
  | 0 => buf
  | m + 1 => moveN (buf.set d (buf.getD s none)) (s + 1) (d + 1) m

/-- Model of `std::move_backward(buf + first, buf + (first+n), buf + (first+n+1))`:
shifts slots `[first, first+n)` one slot to the right, processing the topmost
element first to cope with the overlap. -/
def moveBackwardN (buf : Buf α) (first n : Nat) : Buf α :=
  match n with
  | 0 => buf
  | m + 1 => moveBackwardN (buf.set (first + m + 1) (buf.getD (first + m) none)) first m

/-- Model of `std::uninitialized_value_construct_n(buf + s, n)`:
value-constructs `n` elements (modelled by `default`). -/
def uninitializedValueConstructN [Inhabited α] (buf : Buf α) (s n : Nat) : Buf α :=
  match n with
  | 0 => buf
  | m + 1 => uninitializedValueConstructN (buf.set s (some default)) (s + 1) m

/-- Model of `Vector::CopyOrMove(from + s, n, to + d)` (success case): first
`uninitialized_copy_n`/`uninitialized_move_n` into the destination, then
`destroy_n` on the source range.  Returns (source after, destination after). -/
def CopyOrMove (src : Buf α) (s n : Nat) (dst : Buf α) (d : Nat) : Buf α × Buf α :=
  (destroyN src s n, uninitializedCopyN src s n dst d)

/-- Fallible model of `std::uninitialized_copy_n(from + s, n, to + d)` under a
throw schedule: constructions are numbered from `k`; if construction `k + i`
throws, the copies already constructed are destroyed again (the standard
rollback) and the error carries the (source, destination) buffers the
propagating exception leaves behind.  On success returns the destination and
the next construction number. -/
def uninitializedCopyNE (throws : Nat → Bool) (k : Nat) (src : Buf α) (s n : Nat)
    (dst : Buf α) (d : Nat) : Except (Buf α × Buf α) (Buf α × Nat) :=
  match n with
  | 0 => .ok (dst, k)
  | m + 1 =>
    if throws k then .error (src, dst)
    else
      match uninitializedCopyNE throws (k + 1) src (s + 1) m (dst.set d (src.getD s none)) (d + 1) with
      | .ok r => .ok r
      | .error e => .error (e.1, e.2.set d none)

/-- Fallible model of `Vector::CopyOrMove`: if the element-wise construction
loop throws, the exception propagates before `destroy_n` runs, so the source
range is still intact; on success the source range is destroyed.  Returns
(source after, destination after, next construction number) on success. -/
def CopyOrMoveE (throws : Nat → Bool) (k : Nat) (src : Buf α) (s n : Nat)
    (dst : Buf α) (d : Nat) : Except (Buf α × Buf α) (Buf α × Buf α × Nat) :=
  match uninitializedCopyNE throws k src s n dst d with
  | .error e => .error e
  | .ok r => .ok (destroyN src s n, r.1, r.2)

/-- Model of `Vector<T>`: a raw block plus the count of live elements. -/
structure Vector (α : Type) where
  data : RawMemory α
  size : Nat

namespace Vector

/-- Model of `Vector::Size()`. -/
def Size (v : Vector α) : Nat := v.size

/-- Model of `Vector::Capacity()`. -/
def Capacity (v : Vector α) : Nat := v.data.Capacity

/-- The logical contents of the container: the values of the live slots at
indices `[0, size)`. -/
def elems (v : Vector α) : List α := (v.data.buffer.take v.size).filterMap id

/-- The container invariant: `size ≤ capacity`, slots `[0, size)` are live
(constructed) and slots `[size, capacity)` are uninitialized. -/
def WF (v : Vector α) : Prop :=
  v.size ≤ v.Capacity ∧
  ∀ i, i < v.Capacity →
    (i < v.size → (v.data.buffer.getD i none).isSome = true) ∧
    (v.size ≤ i → v.data.buffer.getD i none = none)

/-- Model of the default constructor `Vector()`: empty, capacity `0`. -/
def empty (α : Type) : Vector α := ⟨⟨[]⟩, 0⟩

/-- Model of the sized constructor `Vector(size_t size)`:
allocate `n` slots and value-construct `n` elements. -/
def sized (α : Type) [Inhabited α] (n : Nat) : Vector α :=
  ⟨⟨uninitializedValueConstructN (RawMemory.Allocate α n).buffer 0 n⟩, n⟩

/-- Model of the copy constructor `Vector(const Vector&)`: allocate
`other.size_` slots and `uninitialized_copy_n` the elements. -/
def copyCtor (other : Vector α) : Vector α :=
  ⟨⟨uninitializedCopyN other.data.buffer 0 other.size
      (RawMemory.Allocate α other.size).buffer 0⟩, other.size⟩

/-- Model of the move constructor `Vector(Vector&&)`: the new container takes
the block and size; the source is left with a null block and size `0`.
Returns (constructed vector, moved-from source). -/
def moveCtor (other : Vector α) : Vector α × Vector α :=
  (⟨other.data, other.size⟩, ⟨⟨[]⟩, 0⟩)

/-- Model of `Vector::Swap`: exchanges blocks and sizes. -/
def SwapPair (v other : Vector α) : Vector α × Vector α :=
  (⟨other.data, other.size⟩, ⟨v.data, v.size⟩)

/-- Model of the move assignment `operator=(Vector&&)`: swap-based.
Returns (assigned-to vector, right-hand side after). -/
def moveAssign (v rhs : Vector α) : Vector α × Vector α := SwapPair v rhs

/-- Model of `Vector::Reserve`. -/
def Reserve (v : Vector α) (new_capacity : Nat) : Vector α :=
  if new_capacity ≤ v.Capacity then v
  else
    ⟨⟨(CopyOrMove v.data.buffer 0 v.size (RawMemory.Allocate α new_capacity).buffer 0).2⟩,
      v.size⟩

/-- Model of `Vector::Resize`. -/
def Resize [Inhabited α] (v : Vector α) (new_size : Nat) : Vector α :=
  if new_size < v.size then
    ⟨⟨destroyN v.data.buffer new_size (v.size - new_size)⟩, new_size⟩
  else if v.size < new_size then
    let w := v.Reserve new_size
    ⟨⟨uninitializedValueConstructN w.data.buffer v.size (new_size - v.size)⟩, new_size⟩
  else v

/-- Model of `Vector::PushBack` (both overloads leave the same slot values). -/
def PushBack (v : Vector α) (value : α) : Vector α :=
  if v.size = v.Capacity then
    let new_data :=
      ((RawMemory.Allocate α (if v.size = 0 then 1 else v.size * 2)).buffer).set v.size (some value)
    ⟨⟨(CopyOrMove v.data.buffer 0 v.size new_data 0).2⟩, v.size + 1⟩
  else
    ⟨⟨v.data.buffer.set v.size (some value)⟩, v.size + 1⟩

/-- Model of `Vector::EmplaceBack`: same steps as `PushBack`, with the new
element constructed in place from the arguments (here: its value). -/
def EmplaceBack (v : Vector α) (value : α) : Vector α :=
  if v.size = v.Capacity then
    let new_data :=
      ((RawMemory.Allocate α (if v.size = 0 then 1 else v.size * 2)).buffer).set v.size (some value)
    ⟨⟨(CopyOrMove v.data.buffer 0 v.size new_data 0).2⟩, v.size + 1⟩
  else
    ⟨⟨v.data.buffer.set v.size (some value)⟩, v.size + 1⟩

/-- Model of `Vector::PopBack`: destroy the last element, decrement size. -/
def PopBack (v : Vector α) : Vector α :=
  ⟨⟨v.data.buffer.set (v.size - 1) none⟩, v.size - 1⟩

/-- Model of `Vector::Emplace(pos, args...)` with `index = pos - begin()`:
the `pos == end()` case delegates to `EmplaceBack`; the reallocating case
constructs the new element at its target index in the new block, then migrates
the two halves; the in-place case materializes a temporary, move-constructs the
last element into the one-past-end slot, shifts `[index, size-1)` right with
`move_backward`, and move-assigns the temporary into slot `index`. -/
def Emplace (v : Vector α) (index : Nat) (value : α) : Vector α :=
  if index = v.size then v.EmplaceBack value
  else if v.size = v.Capacity then
    let new_data :=
      ((RawMemory.Allocate α (if v.size = 0 then 1 else v.size * 2)).buffer).set index (some value)
    let step1 := CopyOrMove v.data.buffer 0 index new_data 0
    let step2 := CopyOrMove step1.1 index (v.size - index) step1.2 (index + 1)
    ⟨⟨step2.2⟩, v.size + 1⟩
  else
    let buf1 := v.data.buffer.set v.size (v.data.buffer.getD (v.size - 1) none)
    let buf2 := moveBackwardN buf1 index (v.size - 1 - index)
    ⟨⟨buf2.set index (some value)⟩, v.size + 1⟩

/-- Model of `Vector::Insert` (both overloads): delegates to `Emplace`. -/
def Insert (v : Vector α) (index : Nat) (value : α) : Vector α := v.Emplace index value

/-- Model of `Vector::Erase(pos)` with `index = pos - begin()`: move-assign
`[index+1, size)` one slot left, destroy the final slot, decrement size. -/
def Erase (v : Vector α) (index : Nat) : Vector α :=
  ⟨⟨(moveN v.data.buffer (index + 1) index (v.size - (index + 1))).set (v.size - 1) none⟩,
    v.size - 1⟩

/-- Model of the copy assignment `operator=(const Vector&)` (for distinct
objects): if `rhs.size_ > Capacity()`, build a full copy and swap it in;
otherwise reuse the storage in place (`copy_n` over the common front, then
either destroy the excess tail or `uninitialized_copy_n` the missing tail). -/
def assign (v rhs : Vector α) : Vector α :=
  if v.Capacity < rhs.size then
    (SwapPair v (copyCtor rhs)).1
  else
    let copy_elem := if rhs.size < v.size then rhs.size else v.size
    let buf1 := copyN rhs.data.buffer 0 copy_elem v.data.buffer 0
    let buf2 :=
      if rhs.size < v.size then destroyN buf1 rhs.size (v.size - rhs.size)
      else uninitializedCopyN rhs.data.buffer v.size (rhs.size - v.size) buf1 v.size
    ⟨⟨buf2⟩, rhs.size⟩

/-- Fallible model of `Vector::PushBack` under a throw schedule: construction
number `0` is the placement-new of the new element, numbers `1, …, size` are
the migration constructions inside `CopyOrMove`.  The error value is the
container as the escaping exception leaves it. -/
def PushBackE (throws : Nat → Bool) (v : Vector α) (value : α) :
    Except (Vector α) (Vector α) :=
  if v.size = v.Capacity then
    if throws 0 then .error ⟨⟨v.data.buffer⟩, v.size⟩
    else
      let new_data :=
        ((RawMemory.Allocate α (if v.size = 0 then 1 else v.size * 2)).buffer).set v.size (some value)
      match CopyOrMoveE throws 1 v.data.buffer 0 v.size new_data 0 with
      | .error e => .error ⟨⟨e.1⟩, v.size⟩
      | .ok r => .ok ⟨⟨r.2.1⟩, v.size + 1⟩
  else
    if throws 0 then .error ⟨⟨v.data.buffer⟩, v.size⟩
    else .ok ⟨⟨v.data.buffer.set v.size (some value)⟩, v.size + 1⟩

/-- Fallible model of `Vector::EmplaceBack`: identical step structure to
`PushBackE`. -/
def EmplaceBackE (throws : Nat → Bool) (v : Vector α) (value : α) :
    Except (Vector α) (Vector α) :=
  if v.size = v.Capacity then
    if throws 0 then .error ⟨⟨v.data.buffer⟩, v.size⟩
    else
      let new_data :=
        ((RawMemory.Allocate α (if v.size = 0 then 1 else v.size * 2)).buffer).set v.size (some value)
      match CopyOrMoveE throws 1 v.data.buffer 0 v.size new_data 0 with
      | .error e => .error ⟨⟨e.1⟩, v.size⟩
      | .ok r => .ok ⟨⟨r.2.1⟩, v.size + 1⟩
  else
    if throws 0 then .error ⟨⟨v.data.buffer⟩, v.size⟩
    else .ok ⟨⟨v.data.buffer.set v.size (some value)⟩, v.size + 1⟩

/-- Fallible model of `Vector::Reserve`: the allocation may fail
(`alloc_fails`), and the migration constructions are numbered from `0`. -/
def ReserveE (alloc_fails : Bool) (throws : Nat → Bool) (v : Vector α)
    (new_capacity : Nat) : Except (Vector α) (Vector α) :=
  if new_capacity ≤ v.Capacity then .ok v
  else if alloc_fails then .error ⟨⟨v.data.buffer⟩, v.size⟩
  else
    match CopyOrMoveE throws 0 v.data.buffer 0 v.size
        (RawMemory.Allocate α new_capacity).buffer 0 with
    | .error e => .error ⟨⟨e.1⟩, v.size⟩
    | .ok r => .ok ⟨⟨r.2.1⟩, v.size⟩

/-- Fallible model of the reallocating interior branch of `Vector::Emplace`
(the branch taken when `pos ≠ end()` and `size_ == Capacity()`): construction
`0` is the new element; the first `CopyOrMove` migrates `[0, index)`, and on
throw the `catch` destroys the new element; the second migrates `[index, size)`
to `[index+1, size+1)`, and on throw the `catch` destroys `new_data[0, index+1)`.
The error value carries the container and the local new block as the escaping
exception leaves them. -/
def EmplaceReallocE (throws : Nat → Bool) (v : Vector α) (index : Nat) (value : α) :
    Except (Vector α × Buf α) (Vector α) :=
  let new_data0 := (RawMemory.Allocate α (if v.size = 0 then 1 else v.size * 2)).buffer
  if throws 0 then .error (⟨⟨v.data.buffer⟩, v.size⟩, new_data0)
  else
    let new_data := new_data0.set index (some value)
    match CopyOrMoveE throws 1 v.data.buffer 0 index new_data 0 with
    | .error e => .error (⟨⟨e.1⟩, v.size⟩, e.2.set index none)
    | .ok r =>
      match CopyOrMoveE throws r.2.2 r.1 index (v.size - index) r.2.1 (index + 1) with
      | .error e => .error (⟨⟨e.1⟩, v.size⟩, destroyN e.2 0 (index + 1))
      | .ok r2 => .ok ⟨⟨r2.2.1⟩, v.size + 1⟩

/-- Fallible model of the copy constructor. -/
def copyCtorE (throws : Nat → Bool) (other : Vector α) : Except Unit (Vector α) :=
  match uninitializedCopyNE throws 0 other.data.buffer 0 other.size
      (RawMemory.Allocate α other.size).buffer 0 with
  | .error _ => .error ()
  | .ok r => .ok ⟨⟨r.1⟩, other.size⟩

/-- Fallible model of the copy assignment: in the reallocating path the full
copy is built first (`Vector copy(rhs)`), and only on success is it swapped in,
so a throw during the copy leaves the target untouched.  The in-place path is
taken in the no-throw scenario. -/
def assignE (throws : Nat → Bool) (v rhs : Vector α) : Except (Vector α) (Vector α) :=
  if v.Capacity < rhs.size then
    match copyCtorE throws rhs with
    | .error _ => .error ⟨⟨v.data.buffer⟩, v.size⟩
    | .ok c => .ok (SwapPair v c).1
  else .ok (v.assign rhs)

/-- A vector built from empty by a sequence of appends; each step uses
`PushBack` (flag `true`) or `EmplaceBack` (flag `false`). -/
def buildByAppends (ops : List (Bool × α)) : Vector α :=
  ops.foldl (fun v p => if p.1 then v.PushBack p.2 else v.EmplaceBack p.2) (empty α)

end Vector

/-! ### Elementary buffer lemmas -/

theorem getD_set_ne {γ : Type _} (l : List γ) (i j : Nat) (a d : γ) (h : i ≠ j) :
    (l.set i a).getD j d = l.getD j d := by
  simp [List.getElem?_set_ne h]

theorem take_set_of_le {γ : Type _} (a : γ) {n m : Nat} (l : List γ) (h : m ≤ n) :
    (l.set n a).take m = l.take m :=
  List.ext_getElem? fun i => by
    rw [List.getElem?_take, List.getElem?_take]
    split
    · next h2 => rw [List.getElem?_set_ne (by omega)]
    · rfl

theorem set_take_succ {γ : Type _} (l : List γ) (i : Nat) (a : γ) (h : i < l.length) :
    (l.set i a).take (i + 1) = l.take i ++ [a] := by
  rw [List.set_eq_take_append_cons_drop, if_pos h, List.take_append_eq_append_take,
    List.take_take]
  have hlen : (l.take i).length = i := List.length_take_of_le (Nat.le_of_lt h)
  rw [hlen]
  have h1 : min (i + 1) i = i := by omega
  have h2 : i + 1 - i = 1 := by omega
  rw [h1, h2, List.take_succ_cons, List.take_zero]

theorem set_drop_self {γ : Type _} (l : List γ) (i : Nat) (a : γ) (h : i < l.length) :
    (l.set i a).drop i = a :: l.drop (i + 1) := by
  rw [List.set_eq_take_append_cons_drop, if_pos h, List.drop_append_eq_append_drop]
  have hlen : (l.take i).length = i := List.length_take_of_le (Nat.le_of_lt h)
  rw [hlen, Nat.sub_self, List.drop_zero, List.drop_eq_nil_of_le (le_of_eq hlen),
    List.nil_append]

theorem length_slice (buf : Buf α) (s n : Nat) : (slice buf s n).length = n := by
  induction n generalizing s with
  | zero => rfl
  | succ m ih => simp [slice, ih]

theorem slice_succ_right (buf : Buf α) (s n : Nat) :
    slice buf s (n + 1) = slice buf s n ++ [buf.getD (s + n) none] := by
  induction n generalizing s with
  | zero => simp [slice]
  | succ m ih =>
    have h1 : s + 1 + m = s + (m + 1) := by omega
    rw [slice, ih (s + 1), h1, slice, List.cons_append]

theorem slice_set_of_lt (buf : Buf α) (i : Nat) (a : Option α) (s n : Nat) (h : i < s) :
    slice (buf.set i a) s n = slice buf s n := by
  induction n generalizing s with
  | zero => rfl
  | succ m ih =>
    rw [slice, slice, ih (s + 1) (by omega), getD_set_ne _ _ _ _ _ (by omega)]

theorem slice_set_of_ge (buf : Buf α) (i : Nat) (a : Option α) (s n : Nat) (h : s + n ≤ i) :
    slice (buf.set i a) s n = slice buf s n := by
  induction n generalizing s with
  | zero => rfl
  | succ m ih =>
    rw [slice, slice, ih (s + 1) (by omega), getD_set_ne _ _ _ _ _ (by omega)]

theorem slice_eq_take_drop (buf : Buf α) (s n : Nat) (h : s + n ≤ buf.length) :
    slice buf s n = (buf.drop s).take n := by
  induction n generalizing s with
  | zero => simp [slice]
  | succ m ih =>
    have hs : s < buf.length := by omega
    rw [slice, ih (s + 1) (by omega), List.getD_eq_getElem _ _ hs,
      List.drop_eq_getElem_cons hs, List.take_succ_cons]

theorem slice_append_left (l r : Buf α) (s n : Nat) (h : s + n ≤ l.length) :
    slice (l ++ r) s n = slice l s n := by
  induction n generalizing s with
  | zero => rfl
  | succ m ih =>
    rw [slice, slice, ih (s + 1) (by omega), List.getD_append _ _ _ _ (by omega)]

theorem length_uninitializedCopyN (src : Buf α) (s n : Nat) (dst : Buf α) (d : Nat) :
    (uninitializedCopyN src s n dst d).length = dst.length := by
  induction n generalizing s dst d with
  | zero => rfl
  | succ m ih => simp [uninitializedCopyN, ih]

theorem length_copyN (src : Buf α) (s n : Nat) (dst : Buf α) (d : Nat) :
    (copyN src s n dst d).length = dst.length := by
  induction n generalizing s dst d with
  | zero => rfl
  | succ m ih => simp [copyN, ih]

theorem length_destroyN (buf : Buf α) (s n : Nat) :
    (destroyN buf s n).length = buf.length := by
  induction n generalizing s buf with
  | zero => rfl
  | succ m ih => simp [destroyN, ih]

theorem length_moveN (buf : Buf α) (s d n : Nat) :
    (moveN buf s d n).length = buf.length := by
  induction n generalizing s d buf with
  | zero => rfl
  | succ m ih => simp [moveN, ih]

theorem length_moveBackwardN (buf : Buf α) (first n : Nat) :
    (moveBackwardN buf first n).length = buf.length := by
  induction n generalizing buf with
  | zero => rfl
  | succ m ih => simp [moveBackwardN, ih]

theorem length_uninitializedValueConstructN [Inhabited α] (buf : Buf α) (s n : Nat) :
    (uninitializedValueConstructN buf s n).length = buf.length := by
  induction n generalizing s buf with
  | zero => rfl
  | succ m ih => simp [uninitializedValueConstructN, ih]

theorem uninitializedCopyN_eq (src : Buf α) (s n : Nat) (dst : Buf α) (d : Nat)
    (h : d + n ≤ dst.length) :
    uninitializedCopyN src s n dst d = dst.take d ++ slice src s n ++ dst.drop (d + n) := by
  induction n generalizing s dst d with
  | zero => simp [uninitializedCopyN, slice, List.take_append_drop]
  | succ m ih =>
    have hd : d < dst.length := by omega
    rw [uninitializedCopyN, ih (s + 1) _ (d + 1) (by simp; omega),
      set_take_succ _ _ _ hd, List.drop_set_of_lt _ _ (by omega)]
    have h1 : d + 1 + m = d + (m + 1) := by omega
    rw [h1, slice]
    simp

theorem copyN_eq (src : Buf α) (s n : Nat) (dst : Buf α) (d : Nat)
    (h : d + n ≤ dst.length) :
    copyN src s n dst d = dst.take d ++ slice src s n ++ dst.drop (d + n) := by
  induction n generalizing s dst d with
  | zero => simp [copyN, slice, List.take_append_drop]
  | succ m ih =>
    have hd : d < dst.length := by omega
    rw [copyN, ih (s + 1) _ (d + 1) (by simp; omega),
      set_take_succ _ _ _ hd, List.drop_set_of_lt _ _ (by omega)]
    have h1 : d + 1 + m = d + (m + 1) := by omega
    rw [h1, slice]
    simp

theorem destroyN_eq (buf : Buf α) (s n : Nat) (h : s + n ≤ buf.length) :
    destroyN buf s n = buf.take s ++ List.replicate n none ++ buf.drop (s + n) := by
  induction n generalizing s buf with
  | zero => simp [destroyN, List.take_append_drop]
  | succ m ih =>
    have hs : s < buf.length := by omega
    rw [destroyN, ih (buf.set s none) (s + 1) (by simp; omega),
      set_take_succ _ _ _ hs, List.drop_set_of_lt _ _ (by omega), List.replicate_succ]
    have h1 : s + 1 + m = s + (m + 1) := by omega
    rw [h1]
    simp

theorem uninitializedValueConstructN_eq [Inhabited α] (buf : Buf α) (s n : Nat)
    (h : s + n ≤ buf.length) :
    uninitializedValueConstructN buf s n =
      buf.take s ++ List.replicate n (some default) ++ buf.drop (s + n) := by
  induction n generalizing s buf with
  | zero => simp [uninitializedValueConstructN, List.take_append_drop]
  | succ m ih =>
    have hs : s < buf.length := by omega
    rw [uninitializedValueConstructN, ih (buf.set s (some default)) (s + 1) (by simp; omega),
      set_take_succ _ _ _ hs, List.drop_set_of_lt _ _ (by omega), List.replicate_succ]
    have h1 : s + 1 + m = s + (m + 1) := by omega
    rw [h1]
    simp

theorem moveN_eq (buf : Buf α) (d n : Nat) (h : d + n < buf.length) :
    moveN buf (d + 1) d n = buf.take d ++ slice buf (d + 1) n ++ buf.drop (d + n) := by
  induction n generalizing d buf with
  | zero => simp [moveN, slice, List.take_append_drop]
  | succ m ih =>
    have hd : d < buf.length := by omega
    rw [moveN]
    have h2 : d + 1 + 1 = (d + 1) + 1 := rfl
    rw [ih (buf.set d (buf.getD (d + 1) none)) (d + 1) (by simp; omega),
      set_take_succ _ _ _ hd, List.drop_set_of_lt _ _ (by omega),
      slice_set_of_lt _ _ _ _ _ (by omega), slice]
    have h1 : d + 1 + m = d + (m + 1) := by omega
    rw [h1]
    simp

theorem moveBackwardN_eq (buf : Buf α) (first n : Nat) (h : first + n < buf.length) :
    moveBackwardN buf first n =
      buf.take (first + 1) ++ slice buf first n ++ buf.drop (first + n + 1) := by
  induction n generalizing buf with
  | zero => simp [moveBackwardN, slice, List.take_append_drop]
  | succ m ih =>
    have hm : first + m + 1 < buf.length := by omega
    rw [moveBackwardN, ih (buf.set (first + m + 1) (buf.getD (first + m) none)) (by simp; omega),
      take_set_of_le _ _ (by omega), slice_set_of_ge _ _ _ _ _ (by omega),
      set_drop_self _ _ _ hm, slice_succ_right]
    have h1 : first + m + 1 + 1 = first + (m + 1) + 1 := by omega
    rw [h1]
    simp

/-! ### The invariant in canonical form -/

theorem getD_replicate_none (k j : Nat) :
    (List.replicate k (none : Option α)).getD j none = none := by
  simp only [List.getD_eq_getElem?_getD, List.getElem?_replicate]
  split <;> rfl

theorem all_isSome_exists_map {l : Buf α}
    (h : ∀ i, i < l.length → (l.getD i none).isSome = true) :
    ∃ ys : List α, l = ys.map some := by
  induction l with
  | nil => exact ⟨[], rfl⟩
  | cons a t ih =>
    obtain ⟨y, hy⟩ := Option.isSome_iff_exists.mp (by simpa using h 0 (by simp))
    obtain ⟨ys, hys⟩ := ih (fun i hi => by simpa using h (i + 1) (by simpa using hi))
    exact ⟨y :: ys, by simp [hy, ← hys]⟩

theorem all_none_eq_replicate {l : Buf α}
    (h : ∀ i, i < l.length → l.getD i none = none) :
    l = List.replicate l.length none := by
  induction l with
  | nil => rfl
  | cons a t ih =>
    have h0 : a = none := by simpa using h 0 (by simp)
    have ht := ih (fun i hi => by simpa using h (i + 1) (by simpa using hi))
    rw [List.length_cons, List.replicate_succ, ← ht, h0]

theorem filterMap_id_map_some (xs : List α) : (xs.map some).filterMap id = xs := by
  induction xs with
  | nil => rfl
  | cons a t ih => simp [List.filterMap_cons, ih]

/-- The pointwise invariant is equivalent to the canonical buffer shape:
the live values followed by uninitialized slots. -/
theorem Vector.wf_iff (v : Vector α) :
    v.WF ↔ ∃ xs : List α, xs.length = v.size ∧
      v.data.buffer = xs.map some ++ List.replicate (v.Capacity - v.size) none := by
  constructor
  · rintro ⟨hsz, hpt⟩
    have hsz' : v.size ≤ v.data.buffer.length := hsz
    have hlen : (v.data.buffer.take v.size).length = v.size :=
      List.length_take_of_le hsz'
    have hsome : ∀ i, i < (v.data.buffer.take v.size).length →
        ((v.data.buffer.take v.size).getD i none).isSome = true := by
      intro i hi
      rw [hlen] at hi
      have hg : (v.data.buffer.take v.size).getD i none = v.data.buffer.getD i none := by
        simp [List.getElem?_take_of_lt hi]
      rw [hg]
      exact (hpt i (by omega)).1 hi
    obtain ⟨xs, hxs⟩ := all_isSome_exists_map hsome
    refine ⟨xs, ?_, ?_⟩
    · have hl := congrArg List.length hxs
      simp only [hlen, List.length_map] at hl
      exact hl.symm
    · have hnone : ∀ i, i < (v.data.buffer.drop v.size).length →
          (v.data.buffer.drop v.size).getD i none = none := by
        intro i hi
        have hg : (v.data.buffer.drop v.size).getD i none =
            v.data.buffer.getD (v.size + i) none := by
          simp [List.getElem?_drop]
        rw [hg]
        have hi2 : v.size + i < v.Capacity := by
          have hcap : v.data.buffer.length = v.Capacity := rfl
          simp only [List.length_drop] at hi
          omega
        exact (hpt (v.size + i) hi2).2 (by omega)
      have hdrop : v.data.buffer.drop v.size =
          List.replicate (v.Capacity - v.size) none := by
        have hd := all_none_eq_replicate hnone
        simpa [Vector.Capacity, RawMemory.Capacity] using hd
      calc v.data.buffer
          = v.data.buffer.take v.size ++ v.data.buffer.drop v.size :=
            (List.take_append_drop _ _).symm
        _ = xs.map some ++ List.replicate (v.Capacity - v.size) none := by
            rw [← hxs, hdrop]
  · rintro ⟨xs, hlen, hbuf⟩
    have hsz : v.size ≤ v.Capacity := by
      have hl := congrArg List.length hbuf
      have hcap : v.data.buffer.length = v.Capacity := rfl
      simp only [List.length_append, List.length_map, List.length_replicate, hlen, hcap] at hl
      omega
    refine ⟨hsz, fun i hi => ⟨fun hsize => ?_, fun hge => ?_⟩⟩
    · rw [hbuf, List.getD_append _ _ _ _ (by simp [hlen]; omega)]
      have hi2 : i < xs.length := by omega
      simp [List.getD_eq_getElem?_getD, List.getElem?_map, List.getElem?_eq_getElem hi2]
    · rw [hbuf, List.getD_append_right _ _ _ _ (by simp [hlen]; omega)]
      exact getD_replicate_none _ _

/-- The logical contents of a well-formed container are exactly the live
values of the canonical form. -/
theorem Vector.elems_eq (v : Vector α) (xs : List α) (hlen : xs.length = v.size)
    (hbuf : v.data.buffer = xs.map some ++ List.replicate (v.Capacity - v.size) none) :
    v.elems = xs := by
  rw [Vector.elems, hbuf, List.take_left' (by simp [hlen]), filterMap_id_map_some]

/-! ### Canonical-form lemmas for the container operations -/

theorem Vector.canon_size_le (v : Vector α) (xs : List α) (hlen : xs.length = v.size)
    (hbuf : v.data.buffer = xs.map some ++ List.replicate (v.Capacity - v.size) none) :
    v.size ≤ v.Capacity := by
  have hl := congrArg List.length hbuf
  have hcap : v.data.buffer.length = v.Capacity := rfl
  simp only [List.length_append, List.length_map, List.length_replicate, hlen, hcap] at hl
  omega

theorem Vector.slice_canon (v : Vector α) (xs : List α) (hlen : xs.length = v.size)
    (hbuf : v.data.buffer = xs.map some ++ List.replicate (v.Capacity - v.size) none)
    (s n : Nat) (h : s + n ≤ v.size) :
    slice v.data.buffer s n = ((xs.drop s).take n).map some := by
  have hsz : v.size ≤ v.Capacity := v.canon_size_le xs hlen hbuf
  have hcap : v.data.buffer.length = v.Capacity := rfl
  rw [slice_eq_take_drop _ _ _ (by omega), hbuf,
    List.drop_append_of_le_length (by simp [hlen]; omega), ← List.map_drop,
    List.take_append_of_le_length (by simp [hlen]; omega), ← List.map_take]

theorem Vector.PushBack_canon (v : Vector α) (xs : List α) (x : α)
    (hlen : xs.length = v.size)
    (hbuf : v.data.buffer = xs.map some ++ List.replicate (v.Capacity - v.size) none) :
    (v.PushBack x).size = v.size + 1 ∧
    (v.PushBack x).Capacity =
      (if v.size = v.Capacity then (if v.size = 0 then 1 else v.size * 2) else v.Capacity) ∧
    (v.PushBack x).data.buffer =
      (xs ++ [x]).map some ++
        List.replicate
          ((if v.size = v.Capacity then (if v.size = 0 then 1 else v.size * 2) else v.Capacity)
            - (v.size + 1)) none := by
  have hsz : v.size ≤ v.Capacity := v.canon_size_le xs hlen hbuf
  refine ⟨?_, ?_, ?_⟩
  · by_cases h : v.size = v.Capacity <;> simp [Vector.PushBack, h]
  · by_cases h : v.size = v.Capacity
    · simp only [Vector.PushBack, if_pos h]
      simp [Vector.Capacity, RawMemory.Capacity, RawMemory.Allocate, CopyOrMove,
        length_uninitializedCopyN]
    · simp only [Vector.PushBack, if_neg h]
      simp [Vector.Capacity, RawMemory.Capacity]
  · by_cases h : v.size = v.Capacity
    · have hlt : v.size < (if v.size = 0 then 1 else v.size * 2) := by split <;> omega
      have hslice : slice v.data.buffer 0 v.size = xs.map some := by
        have hs := v.slice_canon xs hlen hbuf 0 v.size (by omega)
        simpa [← hlen] using hs
      simp only [Vector.PushBack, if_pos h, CopyOrMove, RawMemory.Allocate]
      rw [uninitializedCopyN_eq _ _ _ _ _ (by simp [Nat.le_of_lt hlt]), hslice,
        List.take_zero, Nat.zero_add, set_drop_self _ _ _ (by simp [hlt])]
      simp [List.map_append]
    · have hone : v.Capacity - v.size = (v.Capacity - (v.size + 1)) + 1 := by omega
      simp only [Vector.PushBack, if_neg h]
      rw [hbuf, List.set_append_right _ _ (by simp [hlen])]
      simp only [List.length_map, hlen, Nat.sub_self, hone, List.replicate_succ,
        List.set_cons_zero]
      simp [List.map_append, if_neg h]

theorem Vector.EmplaceBack_eq_PushBack (v : Vector α) (x : α) :
    v.EmplaceBack x = v.PushBack x := rfl

theorem Vector.slice_canon_full (v : Vector α) (xs : List α) (hlen : xs.length = v.size)
    (hbuf : v.data.buffer = xs.map some ++ List.replicate (v.Capacity - v.size) none) :
    slice v.data.buffer 0 v.size = xs.map some := by
  have hs := v.slice_canon xs hlen hbuf 0 v.size (by omega)
  simpa [← hlen] using hs

theorem Vector.Reserve_canon (v : Vector α) (xs : List α) (n : Nat)
    (hlen : xs.length = v.size)
    (hbuf : v.data.buffer = xs.map some ++ List.replicate (v.Capacity - v.size) none) :
    (v.Reserve n).size = v.size ∧
    (v.Reserve n).Capacity = (if n ≤ v.Capacity then v.Capacity else n) ∧
    (v.Reserve n).data.buffer =
      xs.map some ++ List.replicate ((if n ≤ v.Capacity then v.Capacity else n) - v.size) none := by
  have hsz : v.size ≤ v.Capacity := v.canon_size_le xs hlen hbuf
  by_cases h : n ≤ v.Capacity
  · refine ⟨by simp [Vector.Reserve, h], by simp [Vector.Reserve, h], ?_⟩
    rw [if_pos h]
    simp only [Vector.Reserve, if_pos h]
    exact hbuf
  · have hslice := v.slice_canon_full xs hlen hbuf
    refine ⟨by simp [Vector.Reserve, h], ?_, ?_⟩
    · rw [if_neg h]
      simp only [Vector.Reserve, if_neg h]
      simp [Vector.Capacity, RawMemory.Capacity, RawMemory.Allocate, CopyOrMove,
        length_uninitializedCopyN]
    · rw [if_neg h]
      simp only [Vector.Reserve, if_neg h, CopyOrMove, RawMemory.Allocate]
      rw [uninitializedCopyN_eq _ _ _ _ _ (by simp; omega), hslice, List.take_zero,
        Nat.zero_add, List.drop_replicate]
      simp

theorem Vector.PopBack_canon (v : Vector α) (xs : List α) (hpos : 0 < v.size)
    (hlen : xs.length = v.size)
    (hbuf : v.data.buffer = xs.map some ++ List.replicate (v.Capacity - v.size) none) :
    v.PopBack.size = v.size - 1 ∧
    v.PopBack.Capacity = v.Capacity ∧
    v.PopBack.data.buffer =
      xs.dropLast.map some ++ List.replicate (v.Capacity - (v.size - 1)) none := by
  have hsz : v.size ≤ v.Capacity := v.canon_size_le xs hlen hbuf
  have hne : xs ≠ [] := by
    intro hx
    rw [hx] at hlen
    simp only [List.length_nil] at hlen
    omega
  refine ⟨rfl, by simp [Vector.PopBack, Vector.Capacity, RawMemory.Capacity], ?_⟩
  simp only [Vector.PopBack]
  have hxs : xs.map some = xs.dropLast.map some ++ [some (xs.getLast hne)] := by
    conv_lhs => rw [← List.dropLast_concat_getLast hne]
    simp [List.map_append]
  have hAlen : (xs.dropLast.map some).length = v.size - 1 := by
    simp [List.length_dropLast, hlen]
  rw [hbuf, hxs, List.append_assoc, List.set_append_right _ _ hAlen.le, hAlen, Nat.sub_self]
  have hrep : v.Capacity - (v.size - 1) = (v.Capacity - v.size) + 1 := by omega
  rw [hrep, List.replicate_succ]
  simp

theorem Vector.Erase_canon (v : Vector α) (xs : List α) (i : Nat) (hi : i < v.size)
    (hlen : xs.length = v.size)
    (hbuf : v.data.buffer = xs.map some ++ List.replicate (v.Capacity - v.size) none) :
    (v.Erase i).size = v.size - 1 ∧
    (v.Erase i).Capacity = v.Capacity ∧
    (v.Erase i).data.buffer =
      (xs.eraseIdx i).map some ++ List.replicate (v.Capacity - (v.size - 1)) none := by
  have hsz : v.size ≤ v.Capacity := v.canon_size_le xs hlen hbuf
  have hcap : v.data.buffer.length = v.Capacity := rfl
  refine ⟨rfl, by simp [Vector.Erase, Vector.Capacity, RawMemory.Capacity, length_moveN], ?_⟩
  simp only [Vector.Erase]
  rw [moveN_eq _ _ _ (by omega)]
  have hle1 : i ≤ (xs.map some).length := by
    simp only [List.length_map, hlen]
    omega
  have htake : v.data.buffer.take i = (xs.take i).map some := by
    rw [hbuf, List.take_append_of_le_length hle1, List.map_take]
  have hslice := v.slice_canon xs hlen hbuf (i + 1) (v.size - (i + 1)) (by omega)
  have hlen2 : (xs.drop (i + 1)).length ≤ v.size - (i + 1) := by
    simp only [List.length_drop, hlen]
    omega
  rw [List.take_of_length_le hlen2] at hslice
  have hlt : v.size - 1 < xs.length := by omega
  have hdx : xs.drop (v.size - 1) = [xs.get ⟨v.size - 1, hlt⟩] := by
    rw [List.drop_eq_getElem_cons hlt, List.drop_of_length_le (by omega)]
    simp
  have hle2 : v.size - 1 ≤ (xs.map some).length := by
    simp only [List.length_map, hlen]
    omega
  have hdrop : v.data.buffer.drop (v.size - 1) =
      some (xs.get ⟨v.size - 1, hlt⟩) :: List.replicate (v.Capacity - v.size) none := by
    rw [hbuf, List.drop_append_of_le_length hle2, ← List.map_drop, hdx]
    simp
  have hidx : i + (v.size - (i + 1)) = v.size - 1 := by omega
  have hle3 : ((xs.take i).map some).length ≤ v.size - 1 := by
    simp only [List.length_map, List.length_take, hlen]
    omega
  rw [hidx, htake, hslice, hdrop, List.append_assoc, List.set_append_right _ _ hle3]
  have h1 : v.size - 1 - ((xs.take i).map some).length = v.size - 1 - i := by
    simp only [List.length_map, List.length_take, hlen]
    omega
  have hle4 : ((xs.drop (i + 1)).map some).length ≤ v.size - 1 - i := by
    simp only [List.length_map, List.length_drop, hlen]
    omega
  rw [h1, List.set_append_right _ _ hle4]
  have h2 : v.size - 1 - i - ((xs.drop (i + 1)).map some).length = 0 := by
    simp only [List.length_map, List.length_drop, hlen]
    omega
  rw [h2, List.set_cons_zero]
  have hrep : v.Capacity - (v.size - 1) = (v.Capacity - v.size) + 1 := by omega
  rw [List.eraseIdx_eq_take_drop_succ, hrep, List.replicate_succ]
  simp [List.map_append]

theorem slice_append_right (l r : Buf α) (s n : Nat) (h : l.length ≤ s) :
    slice (l ++ r) s n = slice r (s - l.length) n := by
  induction n generalizing s with
  | zero => rfl
  | succ m ih =>
    have h1 : s + 1 - l.length = (s - l.length) + 1 := by omega
    rw [slice, slice, ih (s + 1) (by omega), h1, List.getD_append_right _ _ _ _ h]

theorem slice_canon_buf (buf : Buf α) (xs : List α) (k : Nat)
    (hbuf : buf = xs.map some ++ List.replicate k none) (s n : Nat)
    (h : s + n ≤ xs.length) :
    slice buf s n = ((xs.drop s).take n).map some := by
  rw [hbuf, slice_append_left _ _ _ _ (by simp; omega),
    slice_eq_take_drop _ _ _ (by simp; omega), ← List.map_drop, ← List.map_take]

theorem insertIdx_eq_take_cons_drop (xs : List α) (i : Nat) (x : α) (h : i ≤ xs.length) :
    xs.insertIdx i x = xs.take i ++ x :: xs.drop i := by
  induction xs generalizing i with
  | nil =>
    have h0 : i = 0 := by simpa using h
    simp [h0]
  | cons a t ih =>
    cases i with
    | zero => simp
    | succ j =>
      simp only [List.insertIdx_succ_cons, List.take_succ_cons, List.drop_succ_cons,
        List.cons_append]
      rw [ih j (by simpa using h)]

theorem Vector.Emplace_canon (v : Vector α) (xs : List α) (i : Nat) (x : α) (hi : i ≤ v.size)
    (hlen : xs.length = v.size)
    (hbuf : v.data.buffer = xs.map some ++ List.replicate (v.Capacity - v.size) none) :
    (v.Emplace i x).size = v.size + 1 ∧
    ∃ cap2 : Nat, (v.Emplace i x).Capacity = cap2 ∧ v.Capacity ≤ cap2 ∧
      (v.Emplace i x).data.buffer =
        (xs.insertIdx i x).map some ++ List.replicate (cap2 - (v.size + 1)) none := by
  have hsz : v.size ≤ v.Capacity := v.canon_size_le xs hlen hbuf
  have hcap : v.data.buffer.length = v.Capacity := rfl
  by_cases h0 : i = v.size
  · subst h0
    obtain ⟨h1, h2, h3⟩ := v.PushBack_canon xs x hlen hbuf
    have he : v.Emplace v.size x = v.PushBack x := by
      rw [Vector.Emplace, if_pos rfl, Vector.EmplaceBack_eq_PushBack]
    have hins : xs.insertIdx v.size x = xs ++ [x] := by
      rw [← hlen]
      exact List.insertIdx_length_self xs x
    refine ⟨by rw [he]; exact h1, ?_⟩
    refine ⟨(v.PushBack x).Capacity, by rw [he], ?_, ?_⟩
    · rw [h2]
      split
      · next hc => split <;> omega
      · omega
    · rw [he, hins, h3, h2]
  · have hilt : i < v.size := by omega
    have hpos : v.size ≠ 0 := by omega
    by_cases h : v.size = v.Capacity
    · -- reallocating interior case
      have hncap : (if v.size = 0 then 1 else v.size * 2) = v.size * 2 := if_neg hpos
      have hsplus : v.size + 1 ≤ v.size * 2 := by omega
      have hnd0 : ((List.replicate (v.size * 2) (none : Option α)).set i (some x)).length
          = v.size * 2 := by simp
      have hA : uninitializedCopyN v.data.buffer 0 i
            ((List.replicate (v.size * 2) (none : Option α)).set i (some x)) 0 =
          (xs.take i).map some ++
            (some x :: List.replicate (v.size * 2 - (i + 1)) none) := by
        rw [uninitializedCopyN_eq _ _ _ _ _ (by rw [hnd0]; omega), List.take_zero,
          slice_canon_buf v.data.buffer xs (v.Capacity - v.size) hbuf 0 i (by omega),
          Nat.zero_add, set_drop_self _ _ _ (by simp; omega), List.drop_replicate]
        simp
      have hB : destroyN v.data.buffer 0 i =
          List.replicate i none ++ v.data.buffer.drop i := by
        rw [destroyN_eq _ _ _ (by omega), List.take_zero, Nat.zero_add, List.nil_append]
      have hdropi : v.data.buffer.drop i =
          (xs.drop i).map some ++ List.replicate (v.Capacity - v.size) none := by
        rw [hbuf, List.drop_append_of_le_length (by simp [hlen]; omega), List.map_drop]
      have hslice2 : slice (destroyN v.data.buffer 0 i) i (v.size - i) =
          (xs.drop i).map some := by
        rw [hB, slice_append_right _ _ _ _ (by simp)]
        simp only [List.length_replicate, Nat.sub_self]
        rw [slice_canon_buf (v.data.buffer.drop i) (xs.drop i) (v.Capacity - v.size) hdropi
            0 (v.size - i) (by simp only [Nat.zero_add, List.length_drop, hlen]; omega),
          List.drop_zero, List.take_of_length_le (by simp only [List.length_drop, hlen]; omega)]
      have hl : ((xs.take i).map some).length = i := by
        simp only [List.length_map, List.length_take, hlen]
        omega
      have hAtake : ((xs.take i).map some ++
            (some x :: List.replicate (v.size * 2 - (i + 1)) none)).take (i + 1) =
          (xs.take i).map some ++ [some x] := by
        rw [List.take_append_eq_append_take, List.take_of_length_le (by rw [hl]; omega), hl]
        have h1 : i + 1 - i = 1 := by omega
        rw [h1]
        rfl
      have hAdrop : ((xs.take i).map some ++
            (some x :: List.replicate (v.size * 2 - (i + 1)) none)).drop
              (i + 1 + (v.size - i)) =
          List.replicate (v.size * 2 - (v.size + 1)) none := by
        rw [List.drop_append_eq_append_drop, List.drop_eq_nil_of_le (by rw [hl]; omega), hl]
        have h1 : i + 1 + (v.size - i) - i = (v.size - i) + 1 := by omega
        rw [h1, List.drop_succ_cons, List.drop_replicate, List.nil_append]
        congr 1
        omega
      refine ⟨by simp only [Vector.Emplace, if_neg h0, if_pos h], v.size * 2, ?_, by omega, ?_⟩
      · simp only [Vector.Emplace, if_neg h0, if_pos h, CopyOrMove, RawMemory.Allocate, hncap]
        simp [Vector.Capacity, RawMemory.Capacity, length_uninitializedCopyN]
      · simp only [Vector.Emplace, if_neg h0, if_pos h, CopyOrMove, RawMemory.Allocate, hncap]
        rw [hA, uninitializedCopyN_eq _ _ _ _ _ (by rw [List.length_append, hl]; simp; omega),
          hslice2, hAtake, hAdrop, insertIdx_eq_take_cons_drop xs i x (by omega)]
        simp [List.map_append]
    · -- in-place interior case
      have hlt2 : v.size < v.Capacity := by omega
      have hsl : v.size - 1 < xs.length := by omega
      have hget : v.data.buffer.getD (v.size - 1) none =
          some (xs.get ⟨v.size - 1, hsl⟩) := by
        rw [hbuf, List.getD_append _ _ _ _ (by simp only [List.length_map, hlen]; omega)]
        simp [List.getD_eq_getElem?_getD, List.getElem?_map, List.getElem?_eq_getElem hsl]
      have hone : v.Capacity - v.size = (v.Capacity - (v.size + 1)) + 1 := by omega
      have hbuf1 : v.data.buffer.set v.size (some (xs.get ⟨v.size - 1, hsl⟩)) =
          (xs ++ [xs.get ⟨v.size - 1, hsl⟩]).map some ++
            List.replicate (v.Capacity - (v.size + 1)) none := by
        rw [hbuf, List.set_append_right _ _ (by simp [hlen])]
        simp only [List.length_map, hlen, Nat.sub_self, hone, List.replicate_succ,
          List.set_cons_zero]
        simp [List.map_append]
      have hilt2 : i < xs.length := by omega
      have hys : ((xs ++ [xs.get ⟨v.size - 1, hsl⟩]).map some ++
            List.replicate (v.Capacity - (v.size + 1)) none).take (i + 1) =
          (xs.take i).map some ++ [some (xs.get ⟨i, hilt2⟩)] := by
        rw [List.take_append_of_le_length (by simp [hlen]; omega), List.map_append,
          List.take_append_of_le_length (by simp [hlen]; omega), List.take_succ,
          List.getElem?_map, List.getElem?_eq_getElem hilt2]
        simp
      have hyslice : slice ((xs ++ [xs.get ⟨v.size - 1, hsl⟩]).map some ++
            List.replicate (v.Capacity - (v.size + 1)) none) i (v.size - 1 - i) =
          ((xs.drop i).take (v.size - 1 - i)).map some := by
        rw [slice_canon_buf _ (xs ++ [xs.get ⟨v.size - 1, hsl⟩]) _ rfl i (v.size - 1 - i)
            (by simp [hlen]; omega),
          List.drop_append_of_le_length (by simp [hlen]; omega),
          List.take_append_of_le_length (by simp [hlen]; omega)]
      have hysdrop : ((xs ++ [xs.get ⟨v.size - 1, hsl⟩]).map some ++
            List.replicate (v.Capacity - (v.size + 1)) none).drop (i + (v.size - 1 - i) + 1) =
          some (xs.get ⟨v.size - 1, hsl⟩) ::
            List.replicate (v.Capacity - (v.size + 1)) none := by
        have h1 : i + (v.size - 1 - i) + 1 = v.size := by omega
        rw [h1, List.drop_append_of_le_length (by simp [hlen]), ← List.map_drop,
          List.drop_left' hlen]
        simp
      have hdt : (xs.drop i).take (v.size - 1 - i) ++ [xs.get ⟨v.size - 1, hsl⟩] =
          xs.drop i := by
        have h2 : (xs.drop i)[v.size - 1 - i]? = some (xs.get ⟨v.size - 1, hsl⟩) := by
          rw [List.getElem?_drop]
          have h3 : i + (v.size - 1 - i) = v.size - 1 := by omega
          rw [h3, List.getElem?_eq_getElem hsl]
          simp
        have h4 : (xs.drop i).take ((v.size - 1 - i) + 1) = xs.drop i :=
          List.take_of_length_le (by simp only [List.length_drop, hlen]; omega)
        conv_rhs => rw [← h4]
        rw [List.take_succ, h2]
        rfl
      have hmap : (xs.drop i).map some =
          ((xs.drop i).take (v.size - 1 - i)).map some ++
            [some (xs.get ⟨v.size - 1, hsl⟩)] := by
        conv_lhs => rw [← hdt]
        simp [List.map_append]
      refine ⟨by simp only [Vector.Emplace, if_neg h0, if_neg h], v.Capacity, ?_, le_refl _, ?_⟩
      · simp only [Vector.Emplace, if_neg h0, if_neg h]
        simp [Vector.Capacity, RawMemory.Capacity, length_moveBackwardN]
      · have hl2 : ((xs.take i).map some).length = i := by
          simp only [List.length_map, List.length_take, hlen]
          omega
        simp only [Vector.Emplace, if_neg h0, if_neg h]
        rw [hget, hbuf1, moveBackwardN_eq _ _ _ (by simp [hlen]; omega), hys, hyslice,
          hysdrop, List.append_assoc, List.append_assoc,
          List.set_append_right _ _ hl2.le, hl2, Nat.sub_self, List.singleton_append,
          List.set_cons_zero, insertIdx_eq_take_cons_drop xs i x (by omega),
          List.map_append, List.map_cons, hmap]
        simp [List.append_assoc]

theorem Vector.PushBack_capacity (v : Vector α) (x : α) :
    (v.PushBack x).Capacity =
      if v.size = v.Capacity then (if v.size = 0 then 1 else v.size * 2) else v.Capacity := by
  by_cases h : v.size = v.Capacity
  · simp only [Vector.PushBack, if_pos h]
    simp [Vector.Capacity, RawMemory.Capacity, RawMemory.Allocate, CopyOrMove,
      length_uninitializedCopyN]
  · simp only [Vector.PushBack, if_neg h]
    simp [Vector.Capacity, RawMemory.Capacity]

theorem Vector.PushBack_capacity_mono (v : Vector α) (x : α) :
    v.Capacity ≤ (v.PushBack x).Capacity := by
  rw [v.PushBack_capacity x]
  split
  · next h => split <;> omega
  · omega

theorem Vector.Reserve_capacity (v : Vector α) (n : Nat) :
    (v.Reserve n).Capacity = if n ≤ v.Capacity then v.Capacity else n := by
  by_cases h : n ≤ v.Capacity
  · simp [Vector.Reserve, h]
  · rw [if_neg h]
    simp only [Vector.Reserve, if_neg h]
    simp [Vector.Capacity, RawMemory.Capacity, RawMemory.Allocate, CopyOrMove,
      length_uninitializedCopyN]

theorem Vector.Resize_capacity_mono [Inhabited α] (v : Vector α) (n : Nat) :
    v.Capacity ≤ (v.Resize n).Capacity := by
  by_cases ha : n < v.size
  · have hq : (v.Resize n).Capacity = v.Capacity := by
      simp only [Vector.Resize, if_pos ha]
      simp only [Vector.Capacity, RawMemory.Capacity, length_destroyN]
    rw [hq]
  · by_cases hb : v.size < n
    · have hq : (v.Resize n).Capacity = (v.Reserve n).Capacity := by
        simp only [Vector.Resize, if_neg ha, if_pos hb]
        simp only [Vector.Capacity, RawMemory.Capacity, length_uninitializedValueConstructN]
      rw [hq, v.Reserve_capacity n]
      split <;> omega
    · have hq : v.Resize n = v := by simp [Vector.Resize, ha, hb]
      rw [hq]

theorem Vector.Emplace_capacity_mono (v : Vector α) (i : Nat) (x : α) :
    v.Capacity ≤ (v.Emplace i x).Capacity := by
  by_cases h0 : i = v.size
  · rw [Vector.Emplace, if_pos h0, Vector.EmplaceBack_eq_PushBack]
    exact v.PushBack_capacity_mono x
  · by_cases h : v.size = v.Capacity
    · have hq : (v.Emplace i x).Capacity = (if v.size = 0 then 1 else v.size * 2) := by
        simp only [Vector.Emplace, if_neg h0, if_pos h, CopyOrMove, RawMemory.Allocate]
        simp only [Vector.Capacity, RawMemory.Capacity, length_uninitializedCopyN,
          List.length_set, List.length_replicate]
      rw [hq]
      split <;> omega
    · have hq : (v.Emplace i x).Capacity = v.Capacity := by
        simp only [Vector.Emplace, if_neg h0, if_neg h]
        simp [Vector.Capacity, RawMemory.Capacity, length_moveBackwardN]
      rw [hq]

theorem Vector.sized_canon (α : Type) [Inhabited α] (n : Nat) :
    (Vector.sized α n).size = n ∧ (Vector.sized α n).Capacity = n ∧
    (Vector.sized α n).data.buffer =
      (List.replicate n (default : α)).map some ++
        List.replicate ((Vector.sized α n).Capacity - n) none := by
  have hb : (Vector.sized α n).data.buffer = List.replicate n (some (default : α)) := by
    simp only [Vector.sized, RawMemory.Allocate]
    rw [uninitializedValueConstructN_eq _ _ _ (by simp), List.take_zero, Nat.zero_add,
      List.drop_replicate]
    simp
  have hc : (Vector.sized α n).Capacity = n := by
    simp only [Vector.Capacity, RawMemory.Capacity, hb, List.length_replicate]
  refine ⟨rfl, hc, ?_⟩
  rw [hb, hc, Nat.sub_self, List.map_replicate]
  simp

theorem Vector.copyCtor_canon (v : Vector α) (xs : List α) (hlen : xs.length = v.size)
    (hbuf : v.data.buffer = xs.map some ++ List.replicate (v.Capacity - v.size) none) :
    (Vector.copyCtor v).size = v.size ∧ (Vector.copyCtor v).Capacity = v.size ∧
    (Vector.copyCtor v).data.buffer =
      xs.map some ++ List.replicate ((Vector.copyCtor v).Capacity - v.size) none := by
  have hsz : v.size ≤ v.Capacity := v.canon_size_le xs hlen hbuf
  have hb : (Vector.copyCtor v).data.buffer = xs.map some := by
    simp only [Vector.copyCtor, RawMemory.Allocate]
    rw [uninitializedCopyN_eq _ _ _ _ _ (by simp), List.take_zero, Nat.zero_add,
      List.drop_replicate, Nat.sub_self, v.slice_canon_full xs hlen hbuf]
    simp
  have hc : (Vector.copyCtor v).Capacity = v.size := by
    simp only [Vector.Capacity, RawMemory.Capacity, hb, List.length_map, hlen]
  refine ⟨rfl, hc, ?_⟩
  rw [hb, hc, Nat.sub_self]
  simp

theorem Vector.Resize_canon [Inhabited α] (v : Vector α) (xs : List α) (n : Nat)
    (hlen : xs.length = v.size)
    (hbuf : v.data.buffer = xs.map some ++ List.replicate (v.Capacity - v.size) none) :
    (v.Resize n).size = n ∧
    ∃ ys : List α, ys.length = n ∧
      (v.Resize n).data.buffer =
        ys.map some ++ List.replicate ((v.Resize n).Capacity - n) none := by
  have hsz : v.size ≤ v.Capacity := v.canon_size_le xs hlen hbuf
  have hcap : v.data.buffer.length = v.Capacity := rfl
  by_cases h1 : n < v.size
  · -- shrinking
    have hc : (v.Resize n).Capacity = v.Capacity := by
      simp only [Vector.Resize, if_pos h1]
      simp [Vector.Capacity, RawMemory.Capacity, length_destroyN]
    refine ⟨by simp [Vector.Resize, h1], xs.take n,
      by rw [List.length_take_of_le (by rw [hlen]; omega)], ?_⟩
    rw [hc]
    simp only [Vector.Resize, if_pos h1]
    rw [destroyN_eq _ _ _ (by omega), hbuf,
      List.take_append_of_le_length (by simp [hlen]; omega), ← List.map_take]
    have hd : (xs.map some ++ List.replicate (v.Capacity - v.size) none).drop
        (n + (v.size - n)) = List.replicate (v.Capacity - v.size) none := by
      have h2 : n + (v.size - n) = v.size := by omega
      rw [h2, List.drop_left' (by simp [hlen])]
    rw [hd, List.append_assoc, ← List.replicate_add]
    have h3 : v.size - n + (v.Capacity - v.size) = v.Capacity - n := by omega
    rw [h3]
  · by_cases h2 : v.size < n
    · -- growing
      obtain ⟨hr1, hr2, hr3⟩ := v.Reserve_canon xs n hlen hbuf
      have hrc : n ≤ (v.Reserve n).Capacity := by
        rw [hr2]
        split <;> omega
      have hrlen : (v.Reserve n).data.buffer.length = (v.Reserve n).Capacity := rfl
      have hc : (v.Resize n).Capacity = (v.Reserve n).Capacity := by
        simp only [Vector.Resize, if_neg h1, if_pos h2]
        simp only [Vector.Capacity, RawMemory.Capacity, length_uninitializedValueConstructN]
      refine ⟨by simp [Vector.Resize, h1, h2], xs ++ List.replicate (n - v.size) default,
        by simp [hlen]; omega, ?_⟩
      rw [hc]
      simp only [Vector.Resize, if_neg h1, if_pos h2]
      rw [uninitializedValueConstructN_eq _ _ _ (by rw [hrlen]; rw [hr2]; split <;> omega)]
      rw [hr3, ← hr2, List.take_append_of_le_length (by simp [hlen]), ← List.map_take,
        List.take_of_length_le (by simp [hlen])]
      have hd : ((xs.map some ++ List.replicate ((v.Reserve n).Capacity - v.size) none).drop
          (v.size + (n - v.size))) = List.replicate ((v.Reserve n).Capacity - n) none := by
        rw [List.drop_append_eq_append_drop, List.drop_eq_nil_of_le (by simp [hlen]),
          List.drop_replicate, List.nil_append]
        congr 1
        simp only [List.length_map, hlen]
        omega
      rw [hd, List.map_append, List.map_replicate]
    · -- n = v.size
      have h3 : n = v.size := by omega
      have hveq : v.Resize n = v := by
        simp [Vector.Resize, h1, h2]
      refine ⟨by rw [hveq, h3], xs, by rw [hlen, h3], ?_⟩
      rw [hveq, h3, hbuf]

theorem Vector.assign_canon (v rhs : Vector α) (xs ys : List α)
    (hlenv : xs.length = v.size)
    (hbufv : v.data.buffer = xs.map some ++ List.replicate (v.Capacity - v.size) none)
    (hlenr : ys.length = rhs.size)
    (hbufr : rhs.data.buffer = ys.map some ++ List.replicate (rhs.Capacity - rhs.size) none) :
    (v.assign rhs).size = rhs.size ∧
    (v.assign rhs).Capacity = (if v.Capacity < rhs.size then rhs.size else v.Capacity) ∧
    (v.assign rhs).data.buffer =
      ys.map some ++
        List.replicate
          ((if v.Capacity < rhs.size then rhs.size else v.Capacity) - rhs.size) none := by
  have hszv : v.size ≤ v.Capacity := v.canon_size_le xs hlenv hbufv
  have hszr : rhs.size ≤ rhs.Capacity := rhs.canon_size_le ys hlenr hbufr
  have hcapv : v.data.buffer.length = v.Capacity := rfl
  by_cases hp : v.Capacity < rhs.size
  · obtain ⟨hc1, hc2, hc3⟩ := rhs.copyCtor_canon ys hlenr hbufr
    refine ⟨?_, ?_, ?_⟩
    · simp only [Vector.assign, if_pos hp, Vector.SwapPair]
      exact hc1
    · rw [if_pos hp]
      simp only [Vector.assign, if_pos hp, Vector.SwapPair]
      exact hc2
    · rw [if_pos hp]
      simp only [Vector.assign, if_pos hp, Vector.SwapPair]
      rw [hc3, hc2]
  · by_cases hc : rhs.size < v.size
    · -- in place, source shorter
      have hb1 : copyN rhs.data.buffer 0 rhs.size v.data.buffer 0 =
          ys.map some ++ v.data.buffer.drop rhs.size := by
        rw [copyN_eq _ _ _ _ _ (by omega), List.take_zero, Nat.zero_add,
          slice_canon_buf rhs.data.buffer ys (rhs.Capacity - rhs.size) hbufr 0 rhs.size
            (by omega), List.drop_zero, List.take_of_length_le (by rw [hlenr]),
          List.nil_append]
      have hly : (ys.map some).length = rhs.size := by
        rw [List.length_map, hlenr]
      have hlb1 : (ys.map some ++ v.data.buffer.drop rhs.size).length = v.Capacity := by
        rw [List.length_append, hly, List.length_drop, hcapv]
        omega
      have hstep : destroyN (ys.map some ++ v.data.buffer.drop rhs.size) rhs.size
            (v.size - rhs.size) =
          ys.map some ++ List.replicate (v.Capacity - rhs.size) none := by
        rw [destroyN_eq _ _ _ (by rw [hlb1]; omega),
          List.take_append_of_le_length (le_of_eq hly.symm),
          List.take_of_length_le (le_of_eq hly)]
        have hd : (ys.map some ++ v.data.buffer.drop rhs.size).drop
            (rhs.size + (v.size - rhs.size)) = List.replicate (v.Capacity - v.size) none := by
          rw [List.drop_append_eq_append_drop, List.drop_eq_nil_of_le (by rw [hly]; omega),
            List.nil_append, List.drop_drop]
          have h4 : rhs.size + (rhs.size + (v.size - rhs.size) - (ys.map some).length) =
              v.size := by
            rw [hly]
            omega
          rw [h4, hbufv, List.drop_left' (by simp [hlenv])]
        rw [hd, List.append_assoc, ← List.replicate_add]
        have h5 : v.size - rhs.size + (v.Capacity - v.size) = v.Capacity - rhs.size := by omega
        rw [h5]
      refine ⟨by simp [Vector.assign, hp, hc], ?_, ?_⟩
      · rw [if_neg hp]
        simp only [Vector.assign, if_neg hp, if_pos hc]
        simp [Vector.Capacity, RawMemory.Capacity, length_destroyN, length_copyN]
      · rw [if_neg hp]
        simp only [Vector.assign, if_neg hp, if_pos hc]
        rw [hb1, hstep]
    · -- in place, source not shorter
      have hvr : v.size ≤ rhs.size := by omega
      have hb1 : copyN rhs.data.buffer 0 v.size v.data.buffer 0 =
          (ys.take v.size).map some ++ List.replicate (v.Capacity - v.size) none := by
        rw [copyN_eq _ _ _ _ _ (by omega), List.take_zero, Nat.zero_add,
          slice_canon_buf rhs.data.buffer ys (rhs.Capacity - rhs.size) hbufr 0 v.size
            (by omega), List.drop_zero, List.nil_append, hbufv,
          List.drop_left' (by simp [hlenv])]
      have hlt : ((ys.take v.size).map some).length = v.size := by
        rw [List.length_map, List.length_take_of_le (by rw [hlenr]; omega)]
      have hlb1 : ((ys.take v.size).map some ++
          List.replicate (v.Capacity - v.size) none).length = v.Capacity := by
        rw [List.length_append, hlt, List.length_replicate]
        omega
      have hsl2 : slice rhs.data.buffer v.size (rhs.size - v.size) =
          (ys.drop v.size).map some := by
        rw [slice_canon_buf rhs.data.buffer ys (rhs.Capacity - rhs.size) hbufr v.size
            (rhs.size - v.size) (by rw [hlenr]; omega),
          List.take_of_length_le (by rw [List.length_drop, hlenr])]
      have hdd : ((ys.take v.size).map some ++
          List.replicate (v.Capacity - v.size) none).drop (v.size + (rhs.size - v.size)) =
          List.replicate (v.Capacity - rhs.size) none := by
        rw [List.drop_append_eq_append_drop, List.drop_eq_nil_of_le (by rw [hlt]; omega),
          List.drop_replicate, List.nil_append]
        congr 1
        rw [hlt]
        omega
      have hstep : uninitializedCopyN rhs.data.buffer v.size (rhs.size - v.size)
            ((ys.take v.size).map some ++ List.replicate (v.Capacity - v.size) none) v.size =
          ys.map some ++ List.replicate (v.Capacity - rhs.size) none := by
        rw [uninitializedCopyN_eq _ _ _ _ _ (by rw [hlb1]; omega), hsl2, hdd,
          List.take_append_of_le_length (le_of_eq hlt.symm),
          List.take_of_length_le (le_of_eq hlt), ← List.map_append, List.take_append_drop]
      refine ⟨by simp [Vector.assign, hp, hc], ?_, ?_⟩
      · rw [if_neg hp]
        simp only [Vector.assign, if_neg hp, if_neg hc]
        simp [Vector.Capacity, RawMemory.Capacity, length_uninitializedCopyN, length_copyN]
      · rw [if_neg hp]
        simp only [Vector.assign, if_neg hp, if_neg hc]
        rw [hb1, hstep]

/-! ### Lemmas on the exception paths -/

theorem uninitializedCopyNE_error_src (throws : Nat → Bool) (k : Nat) (src : Buf α)
    (s n : Nat) (dst : Buf α) (d : Nat) (e : Buf α × Buf α)
    (h : uninitializedCopyNE throws k src s n dst d = .error e) : e.1 = src := by
  induction n generalizing k s dst d e with
  | zero =>
    rw [uninitializedCopyNE] at h
    exact absurd h (by simp)
  | succ m ih =>
    rw [uninitializedCopyNE] at h
    by_cases ht : throws k
    · rw [if_pos ht] at h
      simp only [Except.error.injEq] at h
      rw [← h]

    · rw [if_neg ht] at h
      cases hrec : uninitializedCopyNE throws (k + 1) src (s + 1) m
          (dst.set d (src.getD s none)) (d + 1) with
      | ok r =>
        rw [hrec] at h
        exact absurd h (by simp)
      | error e2 =>
        rw [hrec] at h
        simp only [Except.error.injEq] at h
        have h2 := ih (k + 1) (s + 1) (dst.set d (src.getD s none)) (d + 1) e2 hrec
        rw [← h, ← h2]

theorem CopyOrMoveE_error_src (throws : Nat → Bool) (k : Nat) (src : Buf α)
    (s n : Nat) (dst : Buf α) (d : Nat) (e : Buf α × Buf α)
    (h : CopyOrMoveE throws k src s n dst d = .error e) : e.1 = src := by
  rw [CopyOrMoveE] at h
  cases hrec : uninitializedCopyNE throws k src s n dst d with
  | ok r =>
    rw [hrec] at h
    exact absurd h (by simp)
  | error e2 =>
    rw [hrec] at h
    simp only [Except.error.injEq] at h
    rw [← h]
    exact uninitializedCopyNE_error_src throws k src s n dst d e2 hrec

theorem Vector.PushBackE_error (throws : Nat → Bool) (v : Vector α) (x : α) (w : Vector α)
    (h : v.PushBackE throws x = .error w) : w = v := by
  rw [Vector.PushBackE] at h
  by_cases hc : v.size = v.Capacity
  · rw [if_pos hc] at h
    by_cases ht : throws 0
    · rw [if_pos ht] at h
      simp only [Except.error.injEq] at h
      exact h.symm
    · rw [if_neg ht] at h
      simp only at h
      cases hrec : CopyOrMoveE throws 1 v.data.buffer 0 v.size
          (((RawMemory.Allocate α (if v.size = 0 then 1 else v.size * 2)).buffer).set v.size
            (some x)) 0 with
      | ok r =>
        rw [hrec] at h
        exact absurd h (by simp)
      | error e =>
        rw [hrec] at h
        simp only [Except.error.injEq] at h
        have h2 := CopyOrMoveE_error_src _ _ _ _ _ _ _ _ hrec
        rw [← h, h2]
  · rw [if_neg hc] at h
    by_cases ht : throws 0
    · rw [if_pos ht] at h
      simp only [Except.error.injEq] at h
      exact h.symm
    · rw [if_neg ht] at h
      exact absurd h (by simp)

theorem Vector.EmplaceBackE_error (throws : Nat → Bool) (v : Vector α) (x : α) (w : Vector α)
    (h : v.EmplaceBackE throws x = .error w) : w = v := by
  have he : v.EmplaceBackE throws x = v.PushBackE throws x := rfl
  exact v.PushBackE_error throws x w (by rw [← he]; exact h)

theorem Vector.ReserveE_error (alloc_fails : Bool) (throws : Nat → Bool) (v : Vector α)
    (n : Nat) (w : Vector α) (h : v.ReserveE alloc_fails throws n = .error w) : w = v := by
  rw [Vector.ReserveE] at h
  by_cases hc : n ≤ v.Capacity
  · rw [if_pos hc] at h
    exact absurd h (by simp)
  · rw [if_neg hc] at h
    by_cases ha : alloc_fails
    · rw [if_pos ha] at h
      simp only [Except.error.injEq] at h
      exact h.symm
    · rw [if_neg ha] at h
      cases hrec : CopyOrMoveE throws 0 v.data.buffer 0 v.size
          (RawMemory.Allocate α n).buffer 0 with
      | ok r =>
        rw [hrec] at h
        exact absurd h (by simp)
      | error e =>
        rw [hrec] at h
        simp only [Except.error.injEq] at h
        have h2 := CopyOrMoveE_error_src _ _ _ _ _ _ _ _ hrec
        rw [← h, h2]

theorem Vector.assignE_error (throws : Nat → Bool) (v rhs : Vector α) (w : Vector α)
    (h : v.assignE throws rhs = .error w) : w = v := by
  rw [Vector.assignE] at h
  by_cases hp : v.Capacity < rhs.size
  · rw [if_pos hp] at h
    cases hrec : Vector.copyCtorE throws rhs with
    | ok c =>
      rw [hrec] at h
      exact absurd h (by simp)
    | error u =>
      rw [hrec] at h
      simp only [Except.error.injEq] at h
      exact h.symm
  · rw [if_neg hp] at h
    exact absurd h (by simp)

/-! ### Further structural lemmas -/

theorem Vector.wf_of_canon (v : Vector α) (xs : List α) (hlen : xs.length = v.size)
    (hbuf : v.data.buffer = xs.map some ++ List.replicate (v.Capacity - v.size) none) :
    v.WF := (v.wf_iff).mpr ⟨xs, hlen, hbuf⟩

theorem Vector.PushBack_size (v : Vector α) (x : α) : (v.PushBack x).size = v.size + 1 := by
  by_cases h : v.size = v.Capacity <;> simp [Vector.PushBack, h]

theorem Vector.PopBack_capacity (v : Vector α) : v.PopBack.Capacity = v.Capacity := by
  simp [Vector.PopBack, Vector.Capacity, RawMemory.Capacity]

theorem Vector.Erase_capacity (v : Vector α) (i : Nat) :
    (v.Erase i).Capacity = v.Capacity := by
  simp [Vector.Erase, Vector.Capacity, RawMemory.Capacity, length_moveN]

theorem Vector.assign_capacity (v rhs : Vector α) :
    (v.assign rhs).Capacity = if v.Capacity < rhs.size then rhs.size else v.Capacity := by
  by_cases hp : v.Capacity < rhs.size
  · rw [if_pos hp]
    simp only [Vector.assign, if_pos hp, Vector.SwapPair]
    simp [Vector.copyCtor, Vector.Capacity, RawMemory.Capacity, RawMemory.Allocate,
      length_uninitializedCopyN]
  · rw [if_neg hp]
    by_cases hc : rhs.size < v.size
    · simp only [Vector.assign, if_neg hp, if_pos hc]
      simp [Vector.Capacity, RawMemory.Capacity, length_destroyN, length_copyN]
    · simp only [Vector.assign, if_neg hp, if_neg hc]
      simp [Vector.Capacity, RawMemory.Capacity, length_uninitializedCopyN, length_copyN]

theorem getElem?_insertIdx_self (xs : List α) (i : Nat) (x : α) (h : i ≤ xs.length) :
    (xs.insertIdx i x)[i]? = some x := by
  rw [insertIdx_eq_take_cons_drop xs i x h,
    List.getElem?_append_right (List.length_take_of_le h).le,
    List.length_take_of_le h, Nat.sub_self]
  simp

/-! ### The growth invariant for repeated appends -/

/-- The capacity invariant maintained by a sequence of appends starting from
an empty container: either nothing has ever been appended (capacity `0`), or
the capacity is the least power of two that accommodates the current size. -/
def GrowthInv (v : Vector α) : Prop :=
  (v.size = 0 ∧ v.Capacity = 0) ∨
  (∃ k : Nat, v.Capacity = 2 ^ k ∧ v.size ≤ 2 ^ k ∧ 2 ^ k < 2 * v.size)

theorem GrowthInv_pushBack (v : Vector α) (x : α) (h : GrowthInv v) :
    GrowthInv (v.PushBack x) := by
  have hs := v.PushBack_size x
  have hc := v.PushBack_capacity x
  rcases h with ⟨h0, hcap⟩ | ⟨k, hk, hle, hlt⟩
  · have hcc : (v.PushBack x).Capacity = 1 := by
      rw [hc, if_pos (by omega), if_pos h0]
    right
    refine ⟨0, ?_, ?_, ?_⟩
    · rw [hcc, pow_zero]
    · rw [hs, h0]
      norm_num
    · rw [hs, h0]
      norm_num
  · by_cases he : v.size = v.Capacity
    · have hpos : v.size ≠ 0 := by
        intro hz
        rw [hz] at hlt
        omega
      have hcc : (v.PushBack x).Capacity = v.size * 2 := by
        rw [hc, if_pos he, if_neg hpos]
      have hsize : v.size = 2 ^ k := by rw [← hk, he]
      have hps : 2 ^ (k + 1) = 2 ^ k * 2 := pow_succ 2 k
      right
      refine ⟨k + 1, ?_, ?_, ?_⟩
      · rw [hcc, hsize, hps]
      · omega
      · omega
    · have hcc : (v.PushBack x).Capacity = v.Capacity := by rw [hc, if_neg he]
      have hne : v.size ≠ 2 ^ k := by rw [← hk]; exact he
      right
      exact ⟨k, by rw [hcc, hk], by omega, by omega⟩

theorem buildByAppends_inv (ops : List (Bool × α)) :
    ∀ v : Vector α, GrowthInv v →
      GrowthInv (ops.foldl (fun w p => if p.1 then w.PushBack p.2 else w.EmplaceBack p.2) v) ∧
      (ops.foldl (fun w p => if p.1 then w.PushBack p.2 else w.EmplaceBack p.2) v).size =
        v.size + ops.length := by
  induction ops with
  | nil =>
    intro v hv
    exact ⟨hv, by simp⟩
  | cons p t ih =>
    intro v hv
    simp only [List.foldl_cons]
    have hstep : GrowthInv (if p.1 then v.PushBack p.2 else v.EmplaceBack p.2) := by
      by_cases hb : p.1
      · rw [if_pos hb]
        exact GrowthInv_pushBack v p.2 hv
      · rw [if_neg hb, Vector.EmplaceBack_eq_PushBack]
        exact GrowthInv_pushBack v p.2 hv
    have hsz : (if p.1 then v.PushBack p.2 else v.EmplaceBack p.2).size = v.size + 1 := by
      by_cases hb : p.1
      · rw [if_pos hb]
        exact v.PushBack_size p.2
      · rw [if_neg hb, Vector.EmplaceBack_eq_PushBack]
        exact v.PushBack_size p.2
    obtain ⟨h1, h2⟩ := ih _ hstep
    refine ⟨h1, ?_⟩
    rw [h2, hsz, List.length_cons]
    omega

/-! ### The claims -/

/-- C1: If an exception is thrown while appending an element via a reallocating
`PushBack`/`EmplaceBack` (element construction in the new block, or migration
of existing elements), the container afterwards has identical size, capacity,
and contents as before the call (strong guarantee). -/
theorem C1_append_strong_guarantee (α : Type) (throws : Nat → Bool) (v : Vector α)
    (x : α) (w : Vector α) :
    (v.PushBackE throws x = .error w →
      w.Size = v.Size ∧ w.Capacity = v.Capacity ∧ w.elems = v.elems) ∧
    (v.EmplaceBackE throws x = .error w →
      w.Size = v.Size ∧ w.Capacity = v.Capacity ∧ w.elems = v.elems) := by
  constructor
  · intro h
    rw [v.PushBackE_error throws x w h]
    exact ⟨rfl, rfl, rfl⟩
  · intro h
    rw [v.EmplaceBackE_error throws x w h]
    exact ⟨rfl, rfl, rfl⟩

/-- Witness for C1: a full container of one element; the migration copy
(construction number `1`) throws during the reallocating append, and the
container is unchanged. -/
theorem C1_append_strong_guarantee_witness :
    ((⟨⟨[some 1]⟩, 1⟩ : Vector Nat).PushBackE (fun k => k == 1) 2 =
      .error (⟨⟨[some 1]⟩, 1⟩ : Vector Nat)) ∧
    ((⟨⟨[some 1]⟩, 1⟩ : Vector Nat).EmplaceBackE (fun k => k == 1) 2 =
      .error (⟨⟨[some 1]⟩, 1⟩ : Vector Nat)) ∧
    ((⟨⟨[some 1]⟩, 1⟩ : Vector Nat).Size = (⟨⟨[some 1]⟩, 1⟩ : Vector Nat).Size ∧
      (⟨⟨[some 1]⟩, 1⟩ : Vector Nat).Capacity = (⟨⟨[some 1]⟩, 1⟩ : Vector Nat).Capacity ∧
      (⟨⟨[some 1]⟩, 1⟩ : Vector Nat).elems = (⟨⟨[some 1]⟩, 1⟩ : Vector Nat).elems) :=
  ⟨rfl, rfl,
    (C1_append_strong_guarantee Nat (fun k => k == 1) ⟨⟨[some 1]⟩, 1⟩ 2
      ⟨⟨[some 1]⟩, 1⟩).1 rfl⟩

/-- C2: for every vector built from empty by `N` consecutive appends (each a
`PushBack` or an `EmplaceBack`), the capacity after the `N`-th append is the
smallest power of two that is at least `N`. -/
theorem C2_growth_policy (α : Type) (ops : List (Bool × α)) (h : ops ≠ []) :
    ∃ k : Nat, (Vector.buildByAppends ops).Capacity = 2 ^ k ∧
      ops.length ≤ 2 ^ k ∧ ∀ j : Nat, ops.length ≤ 2 ^ j → 2 ^ k ≤ 2 ^ j := by
  obtain ⟨hinv, hsz⟩ := buildByAppends_inv ops (Vector.empty α) (Or.inl ⟨rfl, rfl⟩)
  have hlen : 0 < ops.length := List.length_pos.mpr h
  have hsz2 : (ops.foldl (fun w p => if p.1 then w.PushBack p.2 else w.EmplaceBack p.2)
      (Vector.empty α)).size = ops.length := by
    rw [hsz]
    simp [Vector.empty]
  have hbd : Vector.buildByAppends ops =
      ops.foldl (fun w p => if p.1 then w.PushBack p.2 else w.EmplaceBack p.2)
        (Vector.empty α) := rfl
  rw [hbd]
  rcases hinv with ⟨h0, _⟩ | ⟨k, hk, hle, hlt⟩
  · rw [hsz2] at h0
    omega
  · refine ⟨k, hk, by omega, ?_⟩
    intro j hj
    by_contra hno
    push_neg at hno
    have hjk : j < k := by
      by_contra hkj
      push_neg at hkj
      have hh := Nat.pow_le_pow_right (by norm_num : 1 ≤ 2) hkj
      omega
    have h2 : 2 ^ (j + 1) ≤ 2 ^ k := Nat.pow_le_pow_right (by norm_num) (by omega)
    have h3 : 2 ^ (j + 1) = 2 ^ j * 2 := pow_succ 2 j
    omega

/-- Witness for C2: three appends from empty give capacity `4 = 2^2`. -/
theorem C2_growth_policy_witness :
    (([(true, 0), (false, 1), (true, 2)] : List (Bool × Nat)) ≠ []) ∧
    (∃ k : Nat,
      (Vector.buildByAppends
        ([(true, 0), (false, 1), (true, 2)] : List (Bool × Nat))).Capacity = 2 ^ k ∧
      ([(true, 0), (false, 1), (true, 2)] : List (Bool × Nat)).length ≤ 2 ^ k ∧
      ∀ j : Nat, ([(true, 0), (false, 1), (true, 2)] : List (Bool × Nat)).length ≤ 2 ^ j →
        2 ^ k ≤ 2 ^ j) :=
  ⟨by decide, C2_growth_policy Nat _ (by decide)⟩

/-- C3 (code bug): in the reallocating interior branch of `Emplace`, when the
suffix migration `[index, size)` throws after the prefix migration succeeded,
the old block is NOT intact: `CopyOrMove` has already destroyed the prefix
originals `[0, index)`, so the escaping exception leaves the container with
its old size but with the elements `[0, index)` gone (and its destructor will
destroy those slots a second time).  The new block is fully cleaned up, as the
claim states, but the "old block intact" part of the claim fails.  Evaluated
at a full container `[10, 20, 30]` (size = capacity = 3), emplacing at index
`1`, with the throw on migration construction number `3` (the last suffix
element): the container afterwards holds `[_, 20, 30]` with slot `0` dead. -/
theorem C3_suffix_throw_corrupts_old_block :
    Vector.EmplaceReallocE (fun k => k == 3)
        (⟨⟨[some 10, some 20, some 30]⟩, 3⟩ : Vector Nat) 1 99 =
      .error (⟨⟨[none, some 20, some 30]⟩, 3⟩, List.replicate 6 none) ∧
    (⟨⟨[some 10, some 20, some 30]⟩, 3⟩ : Vector Nat).elems = [10, 20, 30] ∧
    (⟨⟨[none, some 20, some 30]⟩, 3⟩ : Vector Nat).Size = 3 ∧
    (⟨⟨[none, some 20, some 30]⟩, 3⟩ : Vector Nat).elems = [20, 30] :=
  ⟨rfl, rfl, rfl, rfl⟩

/-- C4: `Emplace`/`Insert` at any position `i ≤ size` places the new element at
index `i`, increases the size by one, and preserves the relative order of all
other elements. -/
theorem C4_insert_preserves_order (α : Type) (v : Vector α) (i : Nat) (x : α)
    (hwf : v.WF) (hi : i ≤ v.Size) :
    (v.Emplace i x).Size = v.Size + 1 ∧
    (v.Emplace i x).elems = v.elems.insertIdx i x ∧
    (v.Emplace i x).elems[i]? = some x ∧
    v.Insert i x = v.Emplace i x := by
  obtain ⟨xs, hlen, hbuf⟩ := (v.wf_iff).mp hwf
  obtain ⟨h1, cap2, hc2, hcge, hb⟩ := v.Emplace_canon xs i x hi hlen hbuf
  have helems : (v.Emplace i x).elems = xs.insertIdx i x := by
    apply (v.Emplace i x).elems_eq
    · rw [List.length_insertIdx i xs (by rw [hlen]; exact hi), hlen, h1]
    · rw [h1, hc2]
      exact hb
  have hvel : v.elems = xs := v.elems_eq xs hlen hbuf
  refine ⟨h1, by rw [helems, hvel], ?_, rfl⟩
  rw [helems]
  exact getElem?_insertIdx_self xs i x (by rw [hlen]; exact hi)

/-- Witness for C4: inserting `3` at index `2` of `[1, 2, 4]` yields
`[1, 2, 3, 4]`. -/
theorem C4_insert_preserves_order_witness :
    ((⟨⟨[some 1, some 2, some 4]⟩, 3⟩ : Vector Nat).Emplace 2 3).Size =
      (⟨⟨[some 1, some 2, some 4]⟩, 3⟩ : Vector Nat).Size + 1 ∧
    ((⟨⟨[some 1, some 2, some 4]⟩, 3⟩ : Vector Nat).Emplace 2 3).elems =
      (⟨⟨[some 1, some 2, some 4]⟩, 3⟩ : Vector Nat).elems.insertIdx 2 3 ∧
    ((⟨⟨[some 1, some 2, some 4]⟩, 3⟩ : Vector Nat).Emplace 2 3).elems[2]? = some 3 ∧
    (⟨⟨[some 1, some 2, some 4]⟩, 3⟩ : Vector Nat).Insert 2 3 =
      (⟨⟨[some 1, some 2, some 4]⟩, 3⟩ : Vector Nat).Emplace 2 3 ∧
    ((⟨⟨[some 1, some 2, some 4]⟩, 3⟩ : Vector Nat).Emplace 2 3).elems = [1, 2, 3, 4] := by
  have h := C4_insert_preserves_order Nat ⟨⟨[some 1, some 2, some 4]⟩, 3⟩ 2 3
    ((Vector.wf_iff _).mpr ⟨[1, 2, 4], rfl, rfl⟩) (by decide)
  exact ⟨h.1, h.2.1, h.2.2.1, h.2.2.2, rfl⟩

/-- C5: for every non-empty vector and valid position `i < size`, `Erase i`
removes exactly the element at index `i`, shifts the tail one slot left, and
reduces the size by one; erasing the sole remaining element yields an empty
container. -/
theorem C5_erase (α : Type) (v : Vector α) (i : Nat) (hwf : v.WF) (hi : i < v.Size) :
    (v.Erase i).Size = v.Size - 1 ∧
    (v.Erase i).elems = v.elems.eraseIdx i ∧
    (v.Size = 1 → (v.Erase i).Size = 0 ∧ (v.Erase i).elems = []) := by
  obtain ⟨xs, hlen, hbuf⟩ := (v.wf_iff).mp hwf
  obtain ⟨h1, h2, h3⟩ := v.Erase_canon xs i hi hlen hbuf
  have hlen2 : (xs.eraseIdx i).length = v.size - 1 :=
    by rw [List.length_eraseIdx_of_lt (by rw [hlen]; exact hi), hlen]
  have helems : (v.Erase i).elems = xs.eraseIdx i := by
    apply (v.Erase i).elems_eq
    · rw [hlen2, h1]
    · rw [h1, h2]
      exact h3
  have hvel : v.elems = xs := v.elems_eq xs hlen hbuf
  refine ⟨h1, by rw [helems, hvel], fun hs1 => ?_⟩
  have hv1 : v.size = 1 := hs1
  constructor
  · have hx : (v.Erase i).Size = v.size - 1 := h1
    omega
  · rw [helems]
    apply List.eq_nil_of_length_eq_zero
    rw [hlen2]
    omega

/-- Witness for C5: erasing index `1` of `[1, 2, 3, 4]` yields `[1, 3, 4]`;
erasing the sole element of `[9]` yields the empty container. -/
theorem C5_erase_witness :
    ((⟨⟨[some 1, some 2, some 3, some 4]⟩, 4⟩ : Vector Nat).Erase 1).Size =
      (⟨⟨[some 1, some 2, some 3, some 4]⟩, 4⟩ : Vector Nat).Size - 1 ∧
    ((⟨⟨[some 1, some 2, some 3, some 4]⟩, 4⟩ : Vector Nat).Erase 1).elems =
      (⟨⟨[some 1, some 2, some 3, some 4]⟩, 4⟩ : Vector Nat).elems.eraseIdx 1 ∧
    ((⟨⟨[some 1, some 2, some 3, some 4]⟩, 4⟩ : Vector Nat).Erase 1).elems = [1, 3, 4] ∧
    ((⟨⟨[some 9]⟩, 1⟩ : Vector Nat).Erase 0).Size = 0 ∧
    ((⟨⟨[some 9]⟩, 1⟩ : Vector Nat).Erase 0).elems = [] := by
  have h := C5_erase Nat ⟨⟨[some 1, some 2, some 3, some 4]⟩, 4⟩ 1
    ((Vector.wf_iff _).mpr ⟨[1, 2, 3, 4], rfl, rfl⟩) (by decide)
  have h2 := C5_erase Nat ⟨⟨[some 9]⟩, 1⟩ 0
    ((Vector.wf_iff _).mpr ⟨[9], rfl, rfl⟩) (by decide)
  exact ⟨h.1, h.2.1, rfl, (h2.2.2 rfl).1, (h2.2.2 rfl).2⟩

/-- C6: copy assignment follows the two-path algorithm, after which the
target's size and contents equal the source's; when the source size exceeds
the target's capacity, a full copy is built and swapped in, and on any failure
during that copy the original target is untouched; otherwise the storage is
reused in place. -/
theorem C6_copy_assignment (α : Type) (v rhs : Vector α) (hv : v.WF) (hr : rhs.WF)
    (throws : Nat → Bool) (w : Vector α) :
    (v.assign rhs).Size = rhs.Size ∧
    (v.assign rhs).elems = rhs.elems ∧
    (v.assign rhs).Capacity = (if v.Capacity < rhs.Size then rhs.Size else v.Capacity) ∧
    (v.assignE throws rhs = .error w →
      w.Size = v.Size ∧ w.Capacity = v.Capacity ∧ w.elems = v.elems) := by
  obtain ⟨xs, hlenv, hbufv⟩ := (v.wf_iff).mp hv
  obtain ⟨ys, hlenr, hbufr⟩ := (rhs.wf_iff).mp hr
  obtain ⟨h1, h2, h3⟩ := v.assign_canon rhs xs ys hlenv hbufv hlenr hbufr
  have helems : (v.assign rhs).elems = ys := by
    apply (v.assign rhs).elems_eq
    · rw [hlenr, h1]
    · rw [h1, h2]
      exact h3
  refine ⟨h1, by rw [helems, rhs.elems_eq ys hlenr hbufr], h2, fun h => ?_⟩
  rw [v.assignE_error throws rhs w h]
  exact ⟨rfl, rfl, rfl⟩

/-- Witness for C6: assigning `[7, 8]` into a full one-element container takes
the reallocating path; a throw during the copy leaves the target unchanged. -/
theorem C6_copy_assignment_witness :
    ((⟨⟨[some 1]⟩, 1⟩ : Vector Nat).assign ⟨⟨[some 7, some 8]⟩, 2⟩).Size =
      (⟨⟨[some 7, some 8]⟩, 2⟩ : Vector Nat).Size ∧
    ((⟨⟨[some 1]⟩, 1⟩ : Vector Nat).assign ⟨⟨[some 7, some 8]⟩, 2⟩).elems =
      (⟨⟨[some 7, some 8]⟩, 2⟩ : Vector Nat).elems ∧
    ((⟨⟨[some 1]⟩, 1⟩ : Vector Nat).PushBackE (fun _ => false) 0 =
        (⟨⟨[some 1]⟩, 1⟩ : Vector Nat).PushBackE (fun _ => false) 0) ∧
    ((⟨⟨[some 1]⟩, 1⟩ : Vector Nat).Size = (⟨⟨[some 1]⟩, 1⟩ : Vector Nat).Size ∧
      (⟨⟨[some 1]⟩, 1⟩ : Vector Nat).Capacity = (⟨⟨[some 1]⟩, 1⟩ : Vector Nat).Capacity ∧
      (⟨⟨[some 1]⟩, 1⟩ : Vector Nat).elems = (⟨⟨[some 1]⟩, 1⟩ : Vector Nat).elems) := by
  have h := C6_copy_assignment Nat ⟨⟨[some 1]⟩, 1⟩ ⟨⟨[some 7, some 8]⟩, 2⟩
    ((Vector.wf_iff _).mpr ⟨[1], rfl, rfl⟩)
    ((Vector.wf_iff _).mpr ⟨[7, 8], rfl, rfl⟩)
    (fun k => k == 0) ⟨⟨[some 1]⟩, 1⟩
  exact ⟨h.1, h.2.1, rfl, h.2.2.2 rfl⟩

/-- C7: `Reserve n` with `n` at most the current capacity is a no-op;
otherwise it results in capacity at least `n` with size and element values
unchanged; and if the allocation or the element migration throws, the
original storage and elements are untouched. -/
theorem C7_reserve (α : Type) (v : Vector α) (n : Nat) (hwf : v.WF)
    (alloc_fails : Bool) (throws : Nat → Bool) (w : Vector α) :
    (n ≤ v.Capacity → v.Reserve n = v) ∧
    (v.Capacity < n → n ≤ (v.Reserve n).Capacity ∧ (v.Reserve n).Size = v.Size ∧
      (v.Reserve n).elems = v.elems) ∧
    (v.ReserveE alloc_fails throws n = .error w →
      w.Size = v.Size ∧ w.Capacity = v.Capacity ∧ w.elems = v.elems) := by
  obtain ⟨xs, hlen, hbuf⟩ := (v.wf_iff).mp hwf
  obtain ⟨r1, r2, r3⟩ := v.Reserve_canon xs n hlen hbuf
  refine ⟨fun h => ?_, fun h => ⟨?_, r1, ?_⟩, fun h => ?_⟩
  · rw [Vector.Reserve, if_pos h]
  · rw [r2, if_neg (by omega)]
  · have helems : (v.Reserve n).elems = xs := by
      apply (v.Reserve n).elems_eq
      · rw [hlen, r1]
      · rw [r1, r2]
        exact r3
    rw [helems, v.elems_eq xs hlen hbuf]
  · rw [v.ReserveE_error alloc_fails throws n w h]
    exact ⟨rfl, rfl, rfl⟩

/-- Witness for C7: `Reserve 0` on a one-element container is a no-op;
`Reserve 3` grows it to capacity `3`; a throwing migration leaves it
untouched. -/
theorem C7_reserve_witness :
    ((⟨⟨[some 1]⟩, 1⟩ : Vector Nat).Reserve 0 = (⟨⟨[some 1]⟩, 1⟩ : Vector Nat)) ∧
    (3 ≤ ((⟨⟨[some 1]⟩, 1⟩ : Vector Nat).Reserve 3).Capacity ∧
      ((⟨⟨[some 1]⟩, 1⟩ : Vector Nat).Reserve 3).Size =
        (⟨⟨[some 1]⟩, 1⟩ : Vector Nat).Size ∧
      ((⟨⟨[some 1]⟩, 1⟩ : Vector Nat).Reserve 3).elems =
        (⟨⟨[some 1]⟩, 1⟩ : Vector Nat).elems) ∧
    ((⟨⟨[some 1]⟩, 1⟩ : Vector Nat).ReserveE false (fun k => k == 0) 3 =
      .error (⟨⟨[some 1]⟩, 1⟩ : Vector Nat)) ∧
    ((⟨⟨[some 1]⟩, 1⟩ : Vector Nat).Size = (⟨⟨[some 1]⟩, 1⟩ : Vector Nat).Size ∧
      (⟨⟨[some 1]⟩, 1⟩ : Vector Nat).Capacity = (⟨⟨[some 1]⟩, 1⟩ : Vector Nat).Capacity ∧
      (⟨⟨[some 1]⟩, 1⟩ : Vector Nat).elems = (⟨⟨[some 1]⟩, 1⟩ : Vector Nat).elems) := by
  have h0 := C7_reserve Nat ⟨⟨[some 1]⟩, 1⟩ 0
    ((Vector.wf_iff _).mpr ⟨[1], rfl, rfl⟩) false (fun k => k == 0) ⟨⟨[some 1]⟩, 1⟩
  have h3 := C7_reserve Nat ⟨⟨[some 1]⟩, 1⟩ 3
    ((Vector.wf_iff _).mpr ⟨[1], rfl, rfl⟩) false (fun k => k == 0) ⟨⟨[some 1]⟩, 1⟩
  exact ⟨h0.1 (by decide), h3.2.1 (by decide), rfl, h3.2.2 rfl⟩

/-- C8: every public operation of the container preserves the invariant
`0 ≤ size ≤ capacity`, with slots `[0, size)` live (constructed) and slots
`[size, capacity)` uninitialized. -/
theorem C8_invariant_preserved (α : Type) [Inhabited α] (v rhs : Vector α)
    (n i : Nat) (x : α) (hv : v.WF) (hr : rhs.WF) :
    (Vector.empty α).WF ∧
    (Vector.sized α n).WF ∧
    (Vector.copyCtor v).WF ∧
    (Vector.moveCtor v).1.WF ∧
    (Vector.moveCtor v).2.WF ∧
    (v.SwapPair rhs).1.WF ∧
    (v.SwapPair rhs).2.WF ∧
    (v.moveAssign rhs).1.WF ∧
    (v.moveAssign rhs).2.WF ∧
    (v.assign rhs).WF ∧
    (v.Reserve n).WF ∧
    (v.Resize n).WF ∧
    (v.PushBack x).WF ∧
    (v.EmplaceBack x).WF ∧
    (0 < v.Size → v.PopBack.WF) ∧
    (i ≤ v.Size → (v.Emplace i x).WF) ∧
    (i ≤ v.Size → (v.Insert i x).WF) ∧
    (i < v.Size → (v.Erase i).WF) := by
  obtain ⟨xs, hlenv, hbufv⟩ := (v.wf_iff).mp hv
  obtain ⟨ys, hlenr, hbufr⟩ := (rhs.wf_iff).mp hr
  have hempty : (Vector.empty α).WF := (Vector.empty α).wf_of_canon [] rfl rfl
  have hsized : (Vector.sized α n).WF := by
    obtain ⟨s1, s2, s3⟩ := Vector.sized_canon α n
    exact (Vector.sized α n).wf_of_canon (List.replicate n default)
      (by rw [List.length_replicate, s1]) (by rw [s1]; exact s3)
  have hcopy : (Vector.copyCtor v).WF := by
    obtain ⟨c1, c2, c3⟩ := v.copyCtor_canon xs hlenv hbufv
    exact (Vector.copyCtor v).wf_of_canon xs (by rw [hlenv, c1]) (by rw [c1]; exact c3)
  have hassign : (v.assign rhs).WF := by
    obtain ⟨a1, a2, a3⟩ := v.assign_canon rhs xs ys hlenv hbufv hlenr hbufr
    exact (v.assign rhs).wf_of_canon ys (by rw [hlenr, a1]) (by rw [a1, a2]; exact a3)
  have hreserve : (v.Reserve n).WF := by
    obtain ⟨r1, r2, r3⟩ := v.Reserve_canon xs n hlenv hbufv
    exact (v.Reserve n).wf_of_canon xs (by rw [hlenv, r1]) (by rw [r1, r2]; exact r3)
  have hresize : (v.Resize n).WF := by
    obtain ⟨r1, zs, hz1, hz2⟩ := v.Resize_canon xs n hlenv hbufv
    exact (v.Resize n).wf_of_canon zs (by rw [hz1, r1]) (by rw [r1]; exact hz2)
  have hpush : (v.PushBack x).WF := by
    obtain ⟨p1, p2, p3⟩ := v.PushBack_canon xs x hlenv hbufv
    exact (v.PushBack x).wf_of_canon (xs ++ [x])
      (by rw [List.length_append, hlenv, p1]; rfl) (by rw [p1, p2]; exact p3)
  have hemplaceb : (v.EmplaceBack x).WF := by
    rw [Vector.EmplaceBack_eq_PushBack]
    exact hpush
  have hpop : 0 < v.Size → v.PopBack.WF := by
    intro hp
    obtain ⟨q1, q2, q3⟩ := v.PopBack_canon xs hp hlenv hbufv
    exact v.PopBack.wf_of_canon xs.dropLast
      (by rw [List.length_dropLast, hlenv, q1]) (by rw [q1, q2]; exact q3)
  have hemplace : i ≤ v.Size → (v.Emplace i x).WF := by
    intro hi
    obtain ⟨e1, cap2, ec, ege, eb⟩ := v.Emplace_canon xs i x hi hlenv hbufv
    exact (v.Emplace i x).wf_of_canon (xs.insertIdx i x)
      (by rw [List.length_insertIdx i xs (by rw [hlenv]; exact hi), hlenv, e1])
      (by rw [e1, ec]; exact eb)
  have herase : i < v.Size → (v.Erase i).WF := by
    intro hi
    obtain ⟨e1, e2, e3⟩ := v.Erase_canon xs i hi hlenv hbufv
    exact (v.Erase i).wf_of_canon (xs.eraseIdx i)
      (by rw [List.length_eraseIdx_of_lt (by rw [hlenv]; exact hi), hlenv, e1])
      (by rw [e1, e2]; exact e3)
  exact ⟨hempty, hsized, hcopy, hv, hempty, hr, hv, hr, hv, hassign, hreserve, hresize,
    hpush, hemplaceb, hpop, hemplace, hemplace, herase⟩

/-- Witness for C8: concrete operations on the containers `[5]` (capacity 1)
and `[7]` (capacity 1) all preserve the invariant. -/
theorem C8_invariant_preserved_witness :
    ((⟨⟨[some 5]⟩, 1⟩ : Vector Nat).PushBack 9).WF ∧
    (⟨⟨[some 5]⟩, 1⟩ : Vector Nat).PopBack.WF ∧
    ((⟨⟨[some 5]⟩, 1⟩ : Vector Nat).Emplace 0 9).WF ∧
    ((⟨⟨[some 5]⟩, 1⟩ : Vector Nat).Erase 0).WF ∧
    ((⟨⟨[some 5]⟩, 1⟩ : Vector Nat).assign ⟨⟨[some 7]⟩, 1⟩).WF := by
  have h := C8_invariant_preserved Nat ⟨⟨[some 5]⟩, 1⟩ ⟨⟨[some 7]⟩, 1⟩ 2 0 9
    ((Vector.wf_iff _).mpr ⟨[5], rfl, rfl⟩) ((Vector.wf_iff _).mpr ⟨[7], rfl, rfl⟩)
  exact ⟨h.2.2.2.2.2.2.2.2.2.2.2.2.1,
    h.2.2.2.2.2.2.2.2.2.2.2.2.2.2.1 (by decide),
    h.2.2.2.2.2.2.2.2.2.2.2.2.2.2.2.1 (by decide),
    h.2.2.2.2.2.2.2.2.2.2.2.2.2.2.2.2.2 (by decide),
    h.2.2.2.2.2.2.2.2.2.1⟩

/-- C9: capacity never decreases across any operation (including shrinking
`Resize`, `PopBack`, `Erase`, and copy assignment from a smaller source),
except via being moved from (capacity reset to `0`) or via `Swap`
(capacities exchanged). -/
theorem C9_capacity_never_decreases (α : Type) [Inhabited α] (v rhs : Vector α)
    (n i : Nat) (x : α) :
    v.Capacity ≤ (v.Reserve n).Capacity ∧
    v.Capacity ≤ (v.Resize n).Capacity ∧
    v.Capacity ≤ (v.PushBack x).Capacity ∧
    v.Capacity ≤ (v.EmplaceBack x).Capacity ∧
    v.Capacity ≤ v.PopBack.Capacity ∧
    v.Capacity ≤ (v.Erase i).Capacity ∧
    v.Capacity ≤ (v.Emplace i x).Capacity ∧
    v.Capacity ≤ (v.Insert i x).Capacity ∧
    v.Capacity ≤ (v.assign rhs).Capacity ∧
    (Vector.moveCtor v).1.Capacity = v.Capacity ∧
    (Vector.moveCtor v).2.Capacity = 0 ∧
    (v.SwapPair rhs).1.Capacity = rhs.Capacity ∧
    (v.SwapPair rhs).2.Capacity = v.Capacity ∧
    (v.moveAssign rhs).1.Capacity = rhs.Capacity ∧
    (v.moveAssign rhs).2.Capacity = v.Capacity := by
  refine ⟨?_, v.Resize_capacity_mono n, v.PushBack_capacity_mono x, ?_, ?_, ?_,
    v.Emplace_capacity_mono i x, v.Emplace_capacity_mono i x, ?_, rfl, rfl, rfl, rfl,
    rfl, rfl⟩
  · rw [v.Reserve_capacity n]
    split <;> omega
  · rw [Vector.EmplaceBack_eq_PushBack]
    exact v.PushBack_capacity_mono x
  · rw [v.PopBack_capacity]
  · rw [v.Erase_capacity i]
  · rw [v.assign_capacity rhs]
    split <;> omega

/-- C10: copy construction produces a copy whose elements equal the source's
and whose capacity equals the source's size, not its capacity; a copy of a
vector with spare capacity has a smaller capacity than its source. -/
theorem C10_copy_construction (α : Type) (v : Vector α) (hwf : v.WF) :
    (Vector.copyCtor v).Size = v.Size ∧
    (Vector.copyCtor v).elems = v.elems ∧
    (Vector.copyCtor v).Capacity = v.Size ∧
    (v.Size < v.Capacity → (Vector.copyCtor v).Capacity < v.Capacity) := by
  obtain ⟨xs, hlen, hbuf⟩ := (v.wf_iff).mp hwf
  obtain ⟨c1, c2, c3⟩ := v.copyCtor_canon xs hlen hbuf
  have hel : (Vector.copyCtor v).elems = xs := by
    apply (Vector.copyCtor v).elems_eq
    · rw [hlen, c1]
    · rw [c1]
      exact c3
  refine ⟨c1, by rw [hel, v.elems_eq xs hlen hbuf], c2, fun hlt => ?_⟩
  rw [c2]
  exact hlt

/-- Witness for C10: copying `[5]` held in a two-slot block (size 1,
capacity 2) yields a copy with capacity 1, strictly below the source's 2. -/
theorem C10_copy_construction_witness :
    (Vector.copyCtor (⟨⟨[some 5, none]⟩, 1⟩ : Vector Nat)).Size =
      (⟨⟨[some 5, none]⟩, 1⟩ : Vector Nat).Size ∧
    (Vector.copyCtor (⟨⟨[some 5, none]⟩, 1⟩ : Vector Nat)).elems =
      (⟨⟨[some 5, none]⟩, 1⟩ : Vector Nat).elems ∧
    (Vector.copyCtor (⟨⟨[some 5, none]⟩, 1⟩ : Vector Nat)).Capacity =
      (⟨⟨[some 5, none]⟩, 1⟩ : Vector Nat).Size ∧
    (Vector.copyCtor (⟨⟨[some 5, none]⟩, 1⟩ : Vector Nat)).Capacity <
      (⟨⟨[some 5, none]⟩, 1⟩ : Vector Nat).Capacity := by
  have h := C10_copy_construction Nat ⟨⟨[some 5, none]⟩, 1⟩
    ((Vector.wf_iff _).mpr ⟨[5], rfl, rfl⟩)
  exact ⟨h.1, h.2.1, h.2.2.1, h.2.2.2 (by decide)⟩

end AdvVec
